import Mathlib

/-!
# Verification of the note-processing pipeline core

A shallow embedding, over `List Char` text, of the core of the
note-processing repository:

* `utils.py` — `calculate_file_hash`, `parse_frontmatter`, `generate_frontmatter`;
* `prompt_manager.py` — `format_note_prompt`, `parse_claude_response`;
* `pipeline.py` — `Note`, `NotePipeline._filter`, `_validate`,
  `_mark_as_processing`, `_enhance_with_claude`, `_generate_metadata`,
  `_save_to_file_system`, `process_note`;
* `note_processor.py` — the `(success, result)` unpacking of the pipeline
  return value.

Python text is modelled as `List Char`.  The YAML and JSON libraries used by
the source are external collaborators (the design document places
"YAML/JSON parsing library behavior" out of scope), so they are modelled
from the spec by executable codecs over the fragment of values the pipeline
actually reads and writes (string/int/bool/null scalars, lists of scalars,
flat mappings).  Likewise `hashlib`'s SHA-256 is modelled as a deterministic
digest with the documented `"sha256:<64 hex chars>"` shape; no theorem below
depends on concrete digest values, only on determinism of the function.
-/

/-! ## Basic text utilities (Python `str` operations on `List Char`) -/

/-- Scan a character list for the first position at which `pat` occurs,
mirroring Python `str.find` restricted to a suffix: `findFrom pat s` is
`some i` for the least `i` with `pat` a prefix of `s.drop i`, else `none`. -/
def findFrom (pat : List Char) : List Char → Option Nat
  | [] => if pat.isPrefixOf ([] : List Char) then some 0 else none
  | c :: t => if pat.isPrefixOf (c :: t) then some 0 else (findFrom pat t).map (· + 1)

/-- Python `s.find(pat, start)`: search `s` from index `start`; `none`
models Python's `-1`. -/
def pyFind (s pat : List Char) (start : Nat) : Option Nat :=
  (findFrom pat (s.drop start)).map (· + start)

/-- Split on newline characters, mirroring Python `str.split('\n')`:
always returns at least one (possibly empty) line, and no line contains
`'\n'`. -/
def splitNl : List Char → List (List Char)
  | [] => [[]]
  | c :: rest =>
    if c = '\n' then [] :: splitNl rest
    else
      match splitNl rest with
      | l :: ls => (c :: l) :: ls
      | [] => [[c]]

/-- Join lines with newline separators, mirroring Python `'\n'.join`. -/
def joinNl : List (List Char) → List Char
  | [] => []
  | [l] => l
  | l :: ls => l ++ '\n' :: joinNl ls

/-- Python whitespace characters (the set stripped by `str.strip`). -/
def isPyWs (c : Char) : Bool :=
  c = ' ' ∨ c = '\n' ∨ c = '\t' ∨ c = '\r' ∨ c = '\x0b' ∨ c = '\x0c'

/-- Python `str.strip()`. -/
def pyStrip (s : List Char) : List Char :=
  ((s.dropWhile isPyWs).reverse.dropWhile isPyWs).reverse

/-- Python `str.lower()` (ASCII fragment, which is all the source compares). -/
def lowerStr (s : List Char) : List Char := s.map Char.toLower

/-! ## The YAML value universe (modelled fragment)

Modelled from the spec: the YAML library is an out-of-scope collaborator;
the pipeline only reads and writes flat mappings whose values are
string/int/bool/null scalars or lists of such scalars, plus bare scalar
documents.  `YScalar`/`YVal`/`Yaml` are that fragment. -/

/-- A YAML scalar value of the modelled fragment. -/
inductive YScalar where
  | str (s : List Char)
  | int (n : Int)
  | bool (b : Bool)
  | null
deriving DecidableEq, Repr

/-- A mapping value of the modelled fragment: a scalar or a list of scalars. -/
inductive YVal where
  | s (v : YScalar)
  | list (xs : List YScalar)
deriving DecidableEq, Repr

/-- A parsed YAML document of the modelled fragment: a scalar, a sequence,
or a flat mapping. -/
inductive Yaml where
  | scalar (v : YScalar)
  | seq (xs : List YScalar)
  | map (kvs : List (List Char × YVal))
deriving DecidableEq, Repr

/-- Python truthiness of a parsed YAML value (`bool(x)`), used by the
source's `yaml.safe_load(...) or {}`. -/
def pyFalsy : Yaml → Bool
  | .scalar (.str []) => true
  | .scalar (.int 0) => true
  | .scalar (.bool false) => true
  | .scalar .null => true
  | .seq [] => true
  | .map [] => true
  | _ => false

/-! ## Python dict operations on association lists -/

/-- First-match lookup, modelling `d[k]` / `d.get(k)` on a Python dict
(whose key lists are duplicate-free). -/
def pyLookup (k : List Char) : List (List Char × α) → Option α
  | [] => none
  | (k', v) :: rest => if k' = k then some v else pyLookup k rest

/-- Python `k in d`. -/
def containsKey (k : List Char) (d : List (List Char × α)) : Bool :=
  d.any (fun kv => kv.1 = k)

/-- Insert-or-replace of a single key, keeping the key's position if present
and appending otherwise (Python `d[k] = v`). -/
def pyInsert (k : List Char) (v : α) : List (List Char × α) → List (List Char × α)
  | [] => [(k, v)]
  | (k', v') :: rest => if k' = k then (k, v) :: rest else (k', v') :: pyInsert k v rest

/-- Python `d.update(u)`: keys already present are overwritten in place,
new keys are appended in `u`'s order. -/
def pyUpdate (d u : List (List Char × α)) : List (List Char × α) :=
  u.foldl (fun acc kv => pyInsert kv.1 kv.2 acc) d

/-- Python `d.setdefault(k, v)`. -/
def pySetdefault (k : List Char) (v : α) (d : List (List Char × α)) :
    List (List Char × α) :=
  if containsKey k d then d else d ++ [(k, v)]

/-- Python `==` on dicts: same key sets, and equal values at every key. -/
def pyDictEq (a b : List (List Char × YVal)) : Bool :=
  (a.all fun kv => pyLookup kv.1 b = some kv.2) &&
  (b.all fun kv => pyLookup kv.1 a = some kv.2)

/-! ## Decimal numerals (for the YAML/JSON scalar codecs) -/

/-- The character of a single decimal digit. -/
def digitChar (d : Nat) : Char := Char.ofNat (48 + d)

/-- The value of a decimal digit character. -/
def digitVal (c : Char) : Nat := c.toNat - 48

/-- Decimal representation of a natural number. -/
def natRepr (m : Nat) : List Char :=
  if m = 0 then ['0'] else ((Nat.digits 10 m).map digitChar).reverse

/-- Parse a digit string back to a natural number. -/
def parseNat (l : List Char) : Nat :=
  Nat.ofDigits 10 ((l.map digitVal).reverse)

/-- Decimal representation of an integer. -/
def intRepr (n : Int) : List Char :=
  if n < 0 then '-' :: natRepr n.natAbs else natRepr n.natAbs

/-- `l` is a decimal integer literal: digits, optionally preceded by `'-'`. -/
def isIntLit (l : List Char) : Bool :=
  if l.head? = some '-' then !l.tail.isEmpty && l.tail.all Char.isDigit
  else !l.isEmpty && l.all Char.isDigit

/-- Parse a decimal integer literal. -/
def parseIntLit (l : List Char) : Int :=
  if l.head? = some '-' then -(parseNat l.tail : Int) else (parseNat l : Int)

/-! ### Numeral round-trip lemmas -/

theorem digitVal_digitChar {d : Nat} (hd : d < 10) : digitVal (digitChar d) = d := by
  interval_cases d <;> decide

theorem isDigit_digitChar {d : Nat} (hd : d < 10) : (digitChar d).isDigit = true := by
  interval_cases d <;> decide

theorem ne_dash_of_isDigit {c : Char} (h : c.isDigit = true) : c ≠ '-' := by
  intro he; subst he; exact absurd h (by decide)

theorem parseNat_natRepr (m : Nat) : parseNat (natRepr m) = m := by
  by_cases h : m = 0
  · subst h; decide
  · unfold natRepr parseNat
    rw [if_neg h, List.map_reverse, List.reverse_reverse, List.map_map]
    have hmap : (Nat.digits 10 m).map (digitVal ∘ digitChar) = (Nat.digits 10 m).map id :=
      List.map_congr_left (fun d hdm => digitVal_digitChar (Nat.digits_lt_base (by norm_num) hdm))
    rw [hmap, List.map_id, Nat.ofDigits_digits]

theorem natRepr_ne_nil (m : Nat) : natRepr m ≠ [] := by
  unfold natRepr
  by_cases h : m = 0
  · simp [h]
  · rw [if_neg h]
    simp [Nat.digits_ne_nil_iff_ne_zero.mpr h]

theorem natRepr_all_digits (m : Nat) : (natRepr m).all Char.isDigit = true := by
  unfold natRepr
  by_cases h : m = 0
  · simp only [if_pos h]; decide
  · rw [if_neg h]
    simp only [List.all_eq_true, List.mem_reverse, List.mem_map]
    rintro c ⟨d, hdm, rfl⟩
    exact isDigit_digitChar (Nat.digits_lt_base (by norm_num) hdm)

theorem natRepr_head_not_dash (m : Nat) : (natRepr m).head? ≠ some '-' := by
  intro h
  match hrep : natRepr m with
  | [] => exact absurd hrep (natRepr_ne_nil m)
  | c :: t =>
    rw [hrep] at h
    simp only [List.head?_cons, Option.some.injEq] at h
    have hall := natRepr_all_digits m
    rw [hrep] at hall
    simp only [List.all_cons, Bool.and_eq_true] at hall
    exact ne_dash_of_isDigit hall.1 h

theorem isIntLit_natRepr (m : Nat) : isIntLit (natRepr m) = true := by
  unfold isIntLit
  rw [if_neg (natRepr_head_not_dash m)]
  simp [List.isEmpty_iff, natRepr_ne_nil m, natRepr_all_digits m]

theorem isIntLit_intRepr (n : Int) : isIntLit (intRepr n) = true := by
  unfold intRepr
  by_cases h : n < 0
  · rw [if_pos h]
    unfold isIntLit
    simp only [List.head?_cons, Option.some.injEq, if_pos rfl, List.tail_cons]
    simp [List.isEmpty_iff, natRepr_ne_nil n.natAbs, natRepr_all_digits n.natAbs]
  · rw [if_neg h]; exact isIntLit_natRepr n.natAbs

theorem parseIntLit_intRepr (n : Int) : parseIntLit (intRepr n) = n := by
  unfold intRepr
  by_cases h : n < 0
  · rw [if_pos h]
    unfold parseIntLit
    rw [if_pos (show ('-' :: natRepr n.natAbs).head? = some '-' from rfl),
      List.tail_cons, parseNat_natRepr]
    omega
  · rw [if_neg h]
    unfold parseIntLit
    rw [if_neg (natRepr_head_not_dash n.natAbs), parseNat_natRepr]
    omega

/-! ## YAML scalar codec (modelled fragment) -/

/-- `l` contains the two-character sequence `": "`. -/
def hasColonSp : List Char → Bool
  | [] => false
  | c :: r => (c = ':' && r.head? = some ' ') || hasColonSp r

/-- Double every single quote (YAML single-quoted escaping). -/
def doubleQ : List Char → List Char
  | [] => []
  | c :: r => if c = '\'' then c :: c :: doubleQ r else c :: doubleQ r

/-- Wrap in YAML single quotes, doubling inner quotes. -/
def quoteS (s : List Char) : List Char := '\'' :: (doubleQ s ++ ['\''])

/-- Inverse of `quoteS` past the opening quote: consume up to an unescaped
closing quote; `none` on an unterminated or trailing-junk quoted scalar. -/
def unquote : List Char → Option (List Char)
  | [] => none
  | c :: r =>
    if c = '\'' then
      match r with
      | [] => some []
      | c' :: r' => if c' = '\'' then (unquote r').map ('\'' :: ·) else none
    else (unquote r).map (c :: ·)

/-- Characters the modelled emitter allows in a plain (unquoted) scalar. -/
def plainChar (c : Char) : Bool :=
  c.isAlpha || c.isDigit ||
    (c ∈ ([' ', '_', '.', ',', '-', '(', ')', '/', '+', '@', ':'] : List Char))

/-- The reserved scalar words of the modelled fragment. -/
def isBoolWord (s : List Char) : Bool :=
  s = "true".toList || s = "false".toList || s = "null".toList

/-- A string the modelled emitter may write without quotes: nonempty,
letter-initial, made of plain characters, free of `": "`, and not
readable back as a number or reserved word. -/
def plainOk (s : List Char) : Bool :=
  match s.head? with
  | none => false
  | some c => c.isAlpha && s.all plainChar && !hasColonSp s && !isBoolWord s && !isIntLit s

/-- Serialize one scalar (modelled from the spec: the YAML emitter for the
fragment of values the pipeline writes). -/
def dumpScalar : YScalar → List Char
  | .str s => if plainOk s then s else quoteS s
  | .int n => intRepr n
  | .bool true => "true".toList
  | .bool false => "false".toList
  | .null => "null".toList

/-- Parse one scalar (modelled from the spec: the YAML loader for the
modelled fragment; empty text loads as null, like the library's `None`). -/
def parseScalar (l : List Char) : Except Unit YScalar :=
  if l.isEmpty then .ok .null
  else if l.head? = some '\'' then
    match unquote l.tail with
    | some s => .ok (.str s)
    | none => .error ()
  else if isIntLit l then .ok (.int (parseIntLit l))
  else if l = "true".toList then .ok (.bool true)
  else if l = "false".toList then .ok (.bool false)
  else if l = "null".toList then .ok .null
  else .ok (.str l)

/-! ## YAML block codec (modelled fragment) -/

/-- Split a mapping line at the first key/value separator: `some (k, some v)`
for `k: v`, `some (k, none)` for a line ending in a bare `:`, `none` when no
separator exists. -/
def splitColon : List Char → Option (List Char × Option (List Char))
  | [] => none
  | c :: rest =>
    if c = ':' then
      if rest.isEmpty then some ([], none)
      else if rest.head? = some ' ' then some ([], some rest.tail)
      else (splitColon rest).map (fun p => (c :: p.1, p.2))
    else (splitColon rest).map (fun p => (c :: p.1, p.2))

/-- A block-sequence item line (`"- item"`). -/
def isItemLine (l : List Char) : Bool := "- ".toList.isPrefixOf l

/-- Parse the scalars of a run of `"- item"` lines. -/
def itemsScalars : List (List Char) → Except Unit (List YScalar)
  | [] => .ok []
  | it :: rest =>
    match parseScalar (it.drop 2) with
    | .error e => .error e
    | .ok sc =>
      match itemsScalars rest with
      | .ok xs => .ok (sc :: xs)
      | .error e => .error e

/-- Parse block-mapping lines (fuelled; callers pass at least the line
count, which the recursion never exceeds). -/
def parseMapF : Nat → List (List Char) → Except Unit (List (List Char × YVal))
  | _, [] => .ok []
  | 0, _ :: _ => .error ()
  | fuel + 1, l :: rest =>
    if isItemLine l then .error ()
    else
      match splitColon l with
      | none => .error ()
      | some (k, none) =>
        let items := rest.takeWhile isItemLine
        let rest' := rest.dropWhile isItemLine
        if items.isEmpty then
          match parseMapF fuel rest' with
          | .ok m => .ok ((k, .s .null) :: m)
          | .error e => .error e
        else
          match itemsScalars items with
          | .error e => .error e
          | .ok xs =>
            match parseMapF fuel rest' with
            | .ok m => .ok ((k, .list xs) :: m)
            | .error e => .error e
      | some (k, some vtxt) =>
        if vtxt = "[]".toList then
          match parseMapF fuel rest with
          | .ok m => .ok ((k, .list []) :: m)
          | .error e => .error e
        else
          match parseScalar vtxt with
          | .error e => .error e
          | .ok sc =>
            match parseMapF fuel rest with
            | .ok m => .ok ((k, .s sc) :: m)
            | .error e => .error e

/-- The line ends in a bare `:`. -/
def endsColon (l : List Char) : Bool := l.getLast? = some ':'

/-- A line that stands alone as a scalar document. -/
def isScalarDocLine (l : List Char) : Bool :=
  !hasColonSp l && !endsColon l && !isItemLine l

/-- Parse split lines as a YAML document of the modelled fragment. -/
def parseLines (ls : List (List Char)) : Except Unit Yaml :=
  if !ls.isEmpty && ls.all isItemLine then (itemsScalars ls).map .seq
  else
    match ls with
    | [l] =>
      if isScalarDocLine l then (parseScalar l).map .scalar
      else (parseMapF 1 [l]).map .map
    | _ => (parseMapF ls.length ls).map .map

/-- Modelled from the spec: `yaml.safe_load` on the modelled fragment.
An empty-flow-mapping document loads as the empty mapping. -/
def yamlLoad (t : List Char) : Except Unit Yaml :=
  if t = "\x7b\x7d".toList then .ok (.map []) else parseLines (splitNl t)

/-- Emit the line(s) of one mapping entry. -/
def dumpEntry (k : List Char) : YVal → List (List Char)
  | .s sc => [k ++ ':' :: ' ' :: dumpScalar sc]
  | .list [] => [k ++ ':' :: ' ' :: "[]".toList]
  | .list xs => (k ++ [':']) :: xs.map (fun sc => '-' :: ' ' :: dumpScalar sc)

/-- Emit the lines of a block mapping. -/
def dumpLines : List (List Char × YVal) → List (List Char)
  | [] => []
  | (k, v) :: rest => dumpEntry k v ++ dumpLines rest

/-- The lines of a dumped mapping; the empty mapping dumps as a single
empty-flow-mapping line. -/
def linesOf (M : List (List Char × YVal)) : List (List Char) :=
  if M.isEmpty then ["\x7b\x7d".toList] else dumpLines M

/-- Modelled from the spec: `yaml.dump(..., default_flow_style=False,
sort_keys=False)` on the modelled fragment (newline-terminated). -/
def yamlDump (M : List (List Char × YVal)) : List Char :=
  joinNl (linesOf M) ++ ['\n']

/-! ## `utils.py` -/

/-- Modelled from the spec: `hashlib.sha256(...).hexdigest()` — an
out-of-scope library, modelled as a deterministic 64-hex-character digest
(no theorem relies on concrete digest values). -/
def hexChar (d : Nat) : Char := if d < 10 then digitChar d else Char.ofNat (87 + d)

/-- The 64-hex-character digest body (see `hexChar`). -/
def hexDigest64 (s : List Char) : List Char :=
  let n := s.foldl (fun a c => (a * 1099511628211 + c.toNat) % (2 ^ 256)) 14695981039346656037
  (List.range 64).map (fun i => hexChar ((n / 16 ^ i) % 16))

/-- `utils.calculate_file_hash`: prefixed SHA-256 digest of text content. -/
def calculate_file_hash (s : List Char) : List Char :=
  "sha256:".toList ++ hexDigest64 s

/-- `utils.parse_frontmatter`. -/
def parse_frontmatter (content : List Char) : List Char × Yaml :=
  if ¬("---\n".toList.isPrefixOf content) then (content, .map [])
  else
    match pyFind content "\n---\n".toList 4 with
    | none => (content, .map [])
    | some i =>
      let fmText := (content.take i).drop 4
      let body := content.drop (i + 5)
      match yamlLoad fmText with
      | .error _ => (content, .map [])
      | .ok v => (body, if pyFalsy v then .map [] else v)

/-- `utils.generate_frontmatter`'s fixed key-priority list. -/
def ordered_keys : List (List Char) :=
  ["processed_datetime".toList, "note_hash".toList, "summary".toList, "tags".toList,
   "para_suggestion".toList, "confidence_score".toList, "processing_version".toList,
   "original_length".toList]

/-- The first loop of `generate_frontmatter`: for each priority key present
in the metadata, copy its entry, in priority order. -/
def prioPart : List (List Char) → List (List Char × YVal) → List (List Char × YVal)
  | [], _ => []
  | k :: ks, M =>
    match pyLookup k M with
    | some v => (k, v) :: prioPart ks M
    | none => prioPart ks M

/-- The second loop of `generate_frontmatter`: append each remaining entry
whose key is not yet present. -/
def addRest : List (List Char × YVal) → List (List Char × YVal) → List (List Char × YVal)
  | acc, [] => acc
  | acc, kv :: rest =>
    if containsKey kv.1 acc then addRest acc rest else addRest (acc ++ [kv]) rest

/-- `generate_frontmatter`'s `ordered_metadata` dictionary. -/
def orderedMetadata (M : List (List Char × YVal)) : List (List Char × YVal) :=
  addRest (prioPart ordered_keys M) M

/-- `utils.generate_frontmatter`. -/
def generate_frontmatter (M : List (List Char × YVal)) : List Char :=
  "---\n".toList ++ yamlDump (orderedMetadata M) ++ "---\n".toList

/-! ## Well-formedness of the modelled codec fragment -/

/-- Characters the modelled emitter allows in a plain mapping key. -/
def keyChar (c : Char) : Bool := c.isAlpha || c.isDigit || c = '_'

/-- A key the emitter writes unquoted: nonempty, letter-initial, of
key characters. -/
def wfKey (k : List Char) : Bool :=
  match k.head? with
  | none => false
  | some c => c.isAlpha && k.all keyChar

/-- A scalar of the modelled single-line fragment (strings newline-free). -/
def wfScalar : YScalar → Bool
  | .str s => !s.contains '\n'
  | _ => true

/-- A mapping value of the modelled fragment. -/
def wfVal : YVal → Bool
  | .s sc => wfScalar sc
  | .list xs => xs.all wfScalar

/-- A mapping entry of the modelled fragment. -/
def wfEntry (kv : List Char × YVal) : Bool := wfKey kv.1 && wfVal kv.2

/-- A mapping of the modelled fragment. -/
def wfMap (M : List (List Char × YVal)) : Bool := M.all wfEntry

/-! ### Character-class helper lemmas -/

theorem ne_of_class {c d : Char} {p : Char → Bool} (h : p c = true) (hd : p d = false) :
    c ≠ d := by
  intro he; subst he; rw [h] at hd; cases hd

theorem mem_ne_of_class {c d : Char} {l : List Char} {p : Char → Bool}
    (hall : l.all p = true) (hc : c ∈ l) (hd : p d = false) : c ≠ d :=
  ne_of_class (List.all_eq_true.mp hall c hc) hd

theorem not_mem_of_class {d : Char} {l : List Char} {p : Char → Bool}
    (hall : l.all p = true) (hd : p d = false) : d ∉ l := by
  intro hmem
  exact absurd rfl (mem_ne_of_class hall hmem hd)

/-! ### Facts about well-formed keys -/

theorem wfKey_cases {k : List Char} (h : wfKey k = true) :
    ∃ c t, k = c :: t ∧ c.isAlpha = true ∧ k.all keyChar = true := by
  unfold wfKey at h
  match k, h with
  | [], h => simp at h
  | c :: t, h =>
    simp only [List.head?_cons, Bool.and_eq_true] at h
    exact ⟨c, t, rfl, h.1, h.2⟩

theorem wfKey_no_colon {k : List Char} (h : wfKey k = true) : ':' ∉ k := by
  obtain ⟨c, t, hk, _, hall⟩ := wfKey_cases h
  exact not_mem_of_class hall (by decide)

theorem wfKey_no_nl {k : List Char} (h : wfKey k = true) : '\n' ∉ k := by
  obtain ⟨c, t, hk, _, hall⟩ := wfKey_cases h
  exact not_mem_of_class hall (by decide)

/-! ### Scalar codec inversion -/

theorem unquote_cons_ne {c : Char} (hc : c ≠ '\'') (r : List Char) :
    unquote (c :: r) = (unquote r).map (c :: ·) := by
  rw [unquote.eq_def]
  simp [hc]

theorem unquote_quote_quote (X : List Char) :
    unquote ('\'' :: '\'' :: X) = (unquote X).map ('\'' :: ·) := by
  rw [unquote.eq_def]
  simp

theorem unquote_doubleQ (s : List Char) : unquote (doubleQ s ++ ['\'']) = some s := by
  induction s with
  | nil => rfl
  | cons c t ih =>
    by_cases hc : c = '\''
    · subst hc
      have hd : doubleQ ('\'' :: t) ++ ['\''] = '\'' :: '\'' :: (doubleQ t ++ ['\'']) := by
        simp [doubleQ]
      rw [hd, unquote_quote_quote, ih]
      rfl
    · have hd : doubleQ (c :: t) ++ ['\''] = c :: (doubleQ t ++ ['\'']) := by
        simp [doubleQ, hc]
      rw [hd, unquote_cons_ne hc, ih]
      rfl

theorem parseScalar_quoteS (s : List Char) : parseScalar (quoteS s) = .ok (.str s) := by
  unfold quoteS parseScalar
  rw [if_neg (by simp), if_pos (by simp), List.tail_cons, unquote_doubleQ]

theorem plainOk_cases {s : List Char} (h : plainOk s = true) :
    ∃ c t, s = c :: t ∧ c.isAlpha = true ∧ s.all plainChar = true ∧
      hasColonSp s = false ∧ isBoolWord s = false ∧ isIntLit s = false := by
  unfold plainOk at h
  match s, h with
  | [], h => simp at h
  | c :: t, h =>
    simp only [List.head?_cons, Bool.and_eq_true, Bool.not_eq_true'] at h
    exact ⟨c, t, rfl, h.1.1.1.1, h.1.1.1.2, h.1.1.2, h.1.2, h.2⟩

theorem natRepr_head_digit {m : Nat} {c : Char} {t : List Char}
    (h : natRepr m = c :: t) : c.isDigit = true := by
  have hall := natRepr_all_digits m
  rw [h] at hall
  simp only [List.all_cons, Bool.and_eq_true] at hall
  exact hall.1

theorem intRepr_ne_nil (n : Int) : intRepr n ≠ [] := by
  unfold intRepr
  by_cases h : n < 0
  · rw [if_pos h]; simp
  · rw [if_neg h]; exact natRepr_ne_nil n.natAbs

theorem intRepr_head {n : Int} {c : Char} (h : (intRepr n).head? = some c) :
    c = '-' ∨ c.isDigit = true := by
  unfold intRepr at h
  by_cases hn : n < 0
  · rw [if_pos hn] at h
    simp only [List.head?_cons, Option.some.injEq] at h
    exact Or.inl h.symm
  · rw [if_neg hn] at h
    match hr : natRepr n.natAbs with
    | [] => exact absurd hr (natRepr_ne_nil _)
    | c' :: t =>
      rw [hr] at h
      simp only [List.head?_cons, Option.some.injEq] at h
      subst h
      exact Or.inr (natRepr_head_digit hr)

theorem isBoolWord_false_ne {s : List Char} (h : isBoolWord s = false) :
    s ≠ "true".toList ∧ s ≠ "false".toList ∧ s ≠ "null".toList := by
  unfold isBoolWord at h
  simp only [Bool.or_eq_false_iff, decide_eq_false_iff_not] at h
  exact ⟨h.1.1, h.1.2, h.2⟩

theorem parseScalar_dumpScalar {sc : YScalar} (h : wfScalar sc = true) :
    parseScalar (dumpScalar sc) = .ok sc := by
  match sc with
  | .str s =>
    by_cases hp : plainOk s = true
    · simp only [dumpScalar, if_pos hp]
      obtain ⟨c, t, hs, halpha, _, _, hbw, hint⟩ := plainOk_cases hp
      subst hs
      unfold parseScalar
      obtain ⟨hw1, hw2, hw3⟩ := isBoolWord_false_ne hbw
      rw [if_neg (by simp), if_neg ?hq, if_neg (by simp [hint]), if_neg hw1,
        if_neg hw2, if_neg hw3]
      case hq =>
        simp only [List.head?_cons, Option.some.injEq]
        exact ne_of_class halpha (by decide)
    · simp only [dumpScalar, if_neg hp]
      exact parseScalar_quoteS s
  | .int n =>
    show parseScalar (intRepr n) = .ok (.int n)
    unfold parseScalar
    rw [if_neg (by simp [List.isEmpty_iff, intRepr_ne_nil n]), if_neg ?hq,
      if_pos (isIntLit_intRepr n), parseIntLit_intRepr]
    case hq =>
      intro hh
      rcases intRepr_head hh with h1 | h1
      · exact absurd h1 (by decide)
      · exact absurd h1 (by decide)
  | .bool true => rfl
  | .bool false => rfl
  | .null => rfl

/-! ### Mapping-line split inversion -/

theorem splitColon_keyVal (v k : List Char) (hk : ':' ∉ k) :
    splitColon (k ++ ':' :: ' ' :: v) = some (k, some v) := by
  induction k with
  | nil => rfl
  | cons c k' ih =>
    have hc : c ≠ ':' := fun he => hk (he ▸ List.mem_cons_self c k')
    have hk' : ':' ∉ k' := fun hm => hk (List.mem_cons_of_mem _ hm)
    rw [List.cons_append, splitColon.eq_def]
    simp [hc, ih hk']

theorem splitColon_keyOnly (k : List Char) (hk : ':' ∉ k) :
    splitColon (k ++ [':']) = some (k, none) := by
  induction k with
  | nil => rfl
  | cons c k' ih =>
    have hc : c ≠ ':' := fun he => hk (he ▸ List.mem_cons_self c k')
    have hk' : ':' ∉ k' := fun hm => hk (List.mem_cons_of_mem _ hm)
    rw [List.cons_append, splitColon.eq_def]
    simp [hc, ih hk']

/-! ### takeWhile/dropWhile across a well-placed boundary -/

theorem takeWhile_all_append {α} (p : α → Bool) (xs ys : List α)
    (hx : ∀ x ∈ xs, p x = true) (hy : ∀ y t, ys = y :: t → p y = false) :
    (xs ++ ys).takeWhile p = xs ∧ (xs ++ ys).dropWhile p = ys := by
  induction xs with
  | nil =>
    cases ys with
    | nil => simp
    | cons y t => simp [List.takeWhile_cons, List.dropWhile_cons, hy y t rfl]
  | cons x xs' ih =>
    have hpx : p x = true := hx x (List.mem_cons_self _ _)
    have ih' := ih (fun a ha => hx a (List.mem_cons_of_mem _ ha))
    simp [List.takeWhile_cons, List.dropWhile_cons, hpx, ih'.1, ih'.2]

/-! ### Item-line inversion -/

theorem itemsScalars_dump (xs : List YScalar) (h : xs.all wfScalar = true) :
    itemsScalars (xs.map (fun sc => '-' :: ' ' :: dumpScalar sc)) = .ok xs := by
  induction xs with
  | nil => rfl
  | cons sc xs' ih =>
    simp only [List.all_cons, Bool.and_eq_true] at h
    simp only [List.map_cons, itemsScalars, List.drop_succ_cons, List.drop_zero]
    rw [parseScalar_dumpScalar h.1, ih h.2]

/-! ### Shapes of emitted lines -/

/-- An emitted line is safe for the frontmatter delimiter search: nonempty,
newline-free, and not delimiter-initial. -/
def GoodLine (l : List Char) : Prop :=
  l ≠ [] ∧ '\n' ∉ l ∧ ¬("---".toList <+: l)

theorem mem_doubleQ {c : Char} {s : List Char} (h : c ∈ doubleQ s) : c ∈ s := by
  induction s with
  | nil => simp [doubleQ] at h
  | cons a t ih =>
    by_cases ha : a = '\''
    · subst ha
      rw [show doubleQ ('\'' :: t) = '\'' :: '\'' :: doubleQ t by simp [doubleQ]] at h
      rcases List.mem_cons.mp h with h1 | h1
      · exact h1 ▸ List.mem_cons_self _ _
      · rcases List.mem_cons.mp h1 with h2 | h2
        · exact h2 ▸ List.mem_cons_self _ _
        · exact List.mem_cons_of_mem _ (ih h2)
    · rw [show doubleQ (a :: t) = a :: doubleQ t by simp [doubleQ, ha]] at h
      rcases List.mem_cons.mp h with h1 | h1
      · exact h1 ▸ List.mem_cons_self _ _
      · exact List.mem_cons_of_mem _ (ih h1)

theorem mem_natRepr_digit {c : Char} {m : Nat} (h : c ∈ natRepr m) : c.isDigit = true :=
  List.all_eq_true.mp (natRepr_all_digits m) c h

theorem mem_intRepr {c : Char} {n : Int} (h : c ∈ intRepr n) :
    c = '-' ∨ c.isDigit = true := by
  unfold intRepr at h
  by_cases hn : n < 0
  · rw [if_pos hn] at h
    rcases List.mem_cons.mp h with h | h
    · exact Or.inl h
    · exact Or.inr (mem_natRepr_digit h)
  · rw [if_neg hn] at h
    exact Or.inr (mem_natRepr_digit h)

theorem no_nl_dumpScalar {sc : YScalar} (h : wfScalar sc = true) :
    '\n' ∉ dumpScalar sc := by
  match sc with
  | .str s =>
    have hs : '\n' ∉ s := by
      simp only [wfScalar, Bool.not_eq_true'] at h
      simpa using h
    by_cases hp : plainOk s = true
    · simpa [dumpScalar, hp] using hs
    · simp only [dumpScalar, if_neg hp]
      intro hmem
      unfold quoteS at hmem
      rcases List.mem_cons.mp hmem with h1 | h1
      · exact absurd h1 (by decide)
      · rcases List.mem_append.mp h1 with h2 | h2
        · exact hs (mem_doubleQ h2)
        · simp only [List.mem_singleton] at h2
          exact absurd h2 (by decide)
  | .int n =>
    intro hmem
    rcases mem_intRepr hmem with h1 | h1
    · exact absurd h1 (by decide)
    · exact absurd h1 (by decide)
  | .bool true => decide
  | .bool false => decide
  | .null => decide

theorem goodLine_keyLine {k w : List Char} (hk : wfKey k = true) (hw : '\n' ∉ w) :
    GoodLine (k ++ ':' :: ' ' :: w) := by
  obtain ⟨c, t, hkc, halpha, hall⟩ := wfKey_cases hk
  subst hkc
  refine ⟨by simp, ?_, ?_⟩
  · intro hmem
    rcases List.mem_append.mp hmem with h1 | h1
    · exact wfKey_no_nl hk h1
    · rcases List.mem_cons.mp h1 with h2 | h2
      · exact absurd h2 (by decide)
      · rcases List.mem_cons.mp h2 with h3 | h3
        · exact absurd h3 (by decide)
        · exact hw h3
  · rintro ⟨u, hu⟩
    rw [List.cons_append] at hu
    have : '-' = c := by
      have := congrArg List.head? hu
      simpa using this
    rw [← this] at halpha
    exact absurd halpha (by decide)

theorem goodLine_keyOnly {k : List Char} (hk : wfKey k = true) :
    GoodLine (k ++ [':']) := by
  obtain ⟨c, t, hkc, halpha, hall⟩ := wfKey_cases hk
  subst hkc
  refine ⟨by simp, ?_, ?_⟩
  · intro hmem
    rcases List.mem_append.mp hmem with h1 | h1
    · exact wfKey_no_nl hk h1
    · simp only [List.mem_singleton] at h1
      exact absurd h1 (by decide)
  · rintro ⟨u, hu⟩
    rw [List.cons_append] at hu
    have : '-' = c := by
      have := congrArg List.head? hu
      simpa using this
    rw [← this] at halpha
    exact absurd halpha (by decide)

theorem goodLine_item {sc : YScalar} (h : wfScalar sc = true) :
    GoodLine ('-' :: ' ' :: dumpScalar sc) := by
  refine ⟨by simp, ?_, ?_⟩
  · intro hmem
    rcases List.mem_cons.mp hmem with h1 | h1
    · exact absurd h1 (by decide)
    · rcases List.mem_cons.mp h1 with h2 | h2
      · exact absurd h2 (by decide)
      · exact no_nl_dumpScalar h h2
  · rintro ⟨u, hu⟩
    rw [show "---".toList = ['-', '-', '-'] from rfl] at hu
    simp only [List.cons_append, List.cons.injEq] at hu
    exact absurd hu.2.1.symm (by decide)

theorem goodLine_flowEmpty : GoodLine "\x7b\x7d".toList := by
  refine ⟨by decide, by decide, ?_⟩
  rintro ⟨u, hu⟩
  rw [show "---".toList = ['-', '-', '-'] from rfl,
    show "\x7b\x7d".toList = ['\x7b', '\x7d'] from rfl] at hu
  simp only [List.cons_append, List.cons.injEq] at hu
  exact absurd hu.1 (by decide)

/-! ### Block-mapping inversion -/

theorem dumpScalar_ne_flowSeq (sc : YScalar) : dumpScalar sc ≠ "[]".toList := by
  intro he
  match sc with
  | .str s =>
    by_cases hp : plainOk s = true
    · simp only [dumpScalar, if_pos hp] at he
      subst he
      exact absurd hp (by decide)
    · simp only [dumpScalar, if_neg hp] at he
      unfold quoteS at he
      have hh := congrArg List.head? he
      simp at hh
  | .int n =>
    simp only [dumpScalar] at he
    have hh : (intRepr n).head? = some '[' := by rw [he]; rfl
    rcases intRepr_head hh with h1 | h1
    · exact absurd h1 (by decide)
    · exact absurd h1 (by decide)
  | .bool true => exact absurd he (by decide)
  | .bool false => exact absurd he (by decide)
  | .null => exact absurd he (by decide)

theorem isItemLine_keyInit {k : List Char} (hk : wfKey k = true) (r : List Char) :
    isItemLine (k ++ r) = false := by
  obtain ⟨c, t, hkc, halpha, _⟩ := wfKey_cases hk
  subst hkc
  have hc : c ≠ '-' := ne_of_class halpha (by decide)
  have hb : ('-' == c) = false := beq_eq_false_iff_ne.mpr (Ne.symm hc)
  simp [isItemLine, show "- ".toList = ['-', ' '] from rfl, List.cons_append,
    List.isPrefixOf, hb]

theorem dumpLines_head_not_item {M : List (List Char × YVal)} (h : wfMap M = true)
    {y : List Char} {t : List (List Char)} (hM : dumpLines M = y :: t) :
    isItemLine y = false := by
  match M with
  | [] => simp [dumpLines] at hM
  | (k, v) :: rest =>
    have hk : wfKey k = true := by
      simp only [wfMap, List.all_cons, Bool.and_eq_true, wfEntry] at h
      exact h.1.1
    match v with
    | .s sc =>
      rw [show dumpLines ((k, YVal.s sc) :: rest)
          = (k ++ ':' :: ' ' :: dumpScalar sc) :: dumpLines rest by
        simp [dumpLines, dumpEntry]] at hM
      injection hM with h1 _
      rw [← h1]
      exact isItemLine_keyInit hk _
    | .list [] =>
      rw [show dumpLines ((k, YVal.list []) :: rest)
          = (k ++ ':' :: ' ' :: "[]".toList) :: dumpLines rest by
        simp [dumpLines, dumpEntry]] at hM
      injection hM with h1 _
      rw [← h1]
      exact isItemLine_keyInit hk _
    | .list (x :: xs) =>
      rw [show dumpLines ((k, YVal.list (x :: xs)) :: rest)
          = (k ++ [':']) :: ((x :: xs).map (fun sc => '-' :: ' ' :: dumpScalar sc)
              ++ dumpLines rest) by
        simp [dumpLines, dumpEntry]] at hM
      injection hM with h1 _
      rw [← h1]
      exact isItemLine_keyInit hk _

theorem parseMapF_dumpLines :
    ∀ (M : List (List Char × YVal)), wfMap M = true →
    ∀ fuel : Nat, (dumpLines M).length ≤ fuel →
    parseMapF fuel (dumpLines M) = .ok M := by
  intro M
  induction M with
  | nil =>
    intro _ fuel _
    cases fuel <;> rfl
  | cons e rest ih =>
    obtain ⟨k, v⟩ := e
    intro h fuel hf
    simp only [wfMap, List.all_cons, Bool.and_eq_true, wfEntry] at h
    have hk : wfKey k = true := h.1.1
    have hv := h.1.2
    have hrest : wfMap rest = true := h.2
    match v, hv with
    | .s sc, hv =>
      have hv' : wfScalar sc = true := hv
      have hdl : dumpLines ((k, YVal.s sc) :: rest)
          = (k ++ ':' :: ' ' :: dumpScalar sc) :: dumpLines rest := by
        simp [dumpLines, dumpEntry]
      rw [hdl] at hf ⊢
      cases fuel with
      | zero => simp at hf
      | succ f =>
        simp only [List.length_cons, Nat.add_le_add_iff_right] at hf
        simp only [parseMapF]
        rw [if_neg (by rw [isItemLine_keyInit hk]; simp),
          splitColon_keyVal (dumpScalar sc) k (wfKey_no_colon hk)]
        simp only []
        rw [if_neg (dumpScalar_ne_flowSeq sc), parseScalar_dumpScalar hv',
          ih hrest f hf]
    | .list [], hv =>
      have hdl : dumpLines ((k, YVal.list []) :: rest)
          = (k ++ ':' :: ' ' :: "[]".toList) :: dumpLines rest := by
        simp [dumpLines, dumpEntry]
      rw [hdl] at hf ⊢
      cases fuel with
      | zero => simp at hf
      | succ f =>
        simp only [List.length_cons, Nat.add_le_add_iff_right] at hf
        simp only [parseMapF]
        rw [if_neg (by rw [isItemLine_keyInit hk]; simp),
          splitColon_keyVal "[]".toList k (wfKey_no_colon hk)]
        simp only []
        rw [if_pos trivial, ih hrest f hf]
    | .list (x :: xs), hv =>
      have hv' : (x :: xs).all wfScalar = true := hv
      have hdl : dumpLines ((k, YVal.list (x :: xs)) :: rest)
          = (k ++ [':']) :: ((x :: xs).map (fun sc => '-' :: ' ' :: dumpScalar sc)
              ++ dumpLines rest) := by
        simp [dumpLines, dumpEntry]
      rw [hdl] at hf ⊢
      cases fuel with
      | zero => simp at hf
      | succ f =>
        simp only [List.length_cons, List.length_append, List.length_map] at hf
        have htd := takeWhile_all_append isItemLine
          ((x :: xs).map (fun sc => '-' :: ' ' :: dumpScalar sc)) (dumpLines rest)
          (by
            intro l hm
            obtain ⟨sc, _, rfl⟩ := List.mem_map.mp hm
            simp [isItemLine, show "- ".toList = ['-', ' '] from rfl, List.isPrefixOf])
          (fun y t hyt => dumpLines_head_not_item hrest hyt)
        simp only [parseMapF]
        rw [if_neg (by rw [isItemLine_keyInit hk]; simp),
          splitColon_keyOnly k (wfKey_no_colon hk)]
        simp only []
        rw [htd.1, htd.2]
        rw [if_neg (by simp), itemsScalars_dump (x :: xs) hv',
          ih hrest f (by omega)]

/-! ### Line split/join inversion -/

theorem splitNl_nlfree {l : List Char} (h : '\n' ∉ l) : splitNl l = [l] := by
  induction l with
  | nil => rfl
  | cons c t ih =>
    have hc : c ≠ '\n' := fun he => h (he ▸ List.mem_cons_self c t)
    have ht : '\n' ∉ t := fun hm => h (List.mem_cons_of_mem _ hm)
    simp [splitNl, hc, ih ht]

theorem splitNl_append {l : List Char} (r : List Char) (h : '\n' ∉ l) :
    splitNl (l ++ '\n' :: r) = l :: splitNl r := by
  induction l with
  | nil => simp [splitNl]
  | cons c t ih =>
    have hc : c ≠ '\n' := fun he => h (he ▸ List.mem_cons_self c t)
    have ht : '\n' ∉ t := fun hm => h (List.mem_cons_of_mem _ hm)
    simp [splitNl, hc, ih ht]

theorem splitNl_joinNl :
    ∀ ls : List (List Char), ls ≠ [] → (∀ l ∈ ls, '\n' ∉ l) →
    splitNl (joinNl ls) = ls
  | [], hne, _ => absurd rfl hne
  | [l], _, h => by
    simp only [joinNl]
    exact splitNl_nlfree (h l (List.mem_cons_self _ _))
  | l :: l2 :: rest, _, h => by
    rw [show joinNl (l :: l2 :: rest) = l ++ '\n' :: joinNl (l2 :: rest) from rfl,
      splitNl_append _ (h l (List.mem_cons_self _ _)),
      splitNl_joinNl (l2 :: rest) (by simp) (fun a ha => h a (List.mem_cons_of_mem _ ha))]

/-! ### Emitted lines are good lines -/

theorem dumpLines_good {M : List (List Char × YVal)} (h : wfMap M = true) :
    ∀ l ∈ dumpLines M, GoodLine l := by
  induction M with
  | nil => intro l hl; simp [dumpLines] at hl
  | cons e rest ih =>
    obtain ⟨k, v⟩ := e
    simp only [wfMap, List.all_cons, Bool.and_eq_true, wfEntry] at h
    have hk : wfKey k = true := h.1.1
    have hv := h.1.2
    have ih' := ih h.2
    intro l hl
    rw [show dumpLines ((k, v) :: rest) = dumpEntry k v ++ dumpLines rest from rfl] at hl
    rcases List.mem_append.mp hl with h1 | h1
    · match v, hv, h1 with
      | .s sc, hv, h1 =>
        simp only [dumpEntry, List.mem_singleton] at h1
        subst h1
        exact goodLine_keyLine hk (no_nl_dumpScalar hv)
      | .list [], hv, h1 =>
        simp only [dumpEntry, List.mem_singleton] at h1
        subst h1
        exact goodLine_keyLine hk (by decide)
      | .list (x :: xs), hv, h1 =>
        rcases List.mem_cons.mp h1 with h2 | h2
        · subst h2
          exact goodLine_keyOnly hk
        · obtain ⟨sc, hsc, rfl⟩ := List.mem_map.mp h2
          exact goodLine_item (List.all_eq_true.mp hv sc hsc)
    · exact ih' l h1

theorem linesOf_good {M : List (List Char × YVal)} (h : wfMap M = true) :
    ∀ l ∈ linesOf M, GoodLine l := by
  intro l hl
  unfold linesOf at hl
  by_cases hM : M.isEmpty = true
  · rw [if_pos hM] at hl
    simp only [List.mem_singleton] at hl
    exact hl ▸ goodLine_flowEmpty
  · rw [if_neg hM] at hl
    exact dumpLines_good h l hl

/-! ### Head lines of dumped mappings -/

theorem hasColonSp_keyVal (k w : List Char) : hasColonSp (k ++ ':' :: ' ' :: w) = true := by
  induction k with
  | nil => simp [hasColonSp]
  | cons c t ih => simp [hasColonSp, ih]

theorem endsColon_keyOnly (k : List Char) : endsColon (k ++ [':']) = true := by
  simp [endsColon, List.getLast?_concat]

theorem dumpEntry_head_shape (k : List Char) (v : YVal) :
    (∃ w t, dumpEntry k v = (k ++ ':' :: ' ' :: w) :: t) ∨
    (∃ t, dumpEntry k v = (k ++ [':']) :: t) := by
  match v with
  | .s sc => exact Or.inl ⟨dumpScalar sc, [], rfl⟩
  | .list [] => exact Or.inl ⟨"[]".toList, [], rfl⟩
  | .list (x :: xs) => exact Or.inr ⟨_, rfl⟩

theorem dumpLines_head_not_scalarDoc {M : List (List Char × YVal)}
    {y : List Char} {t : List (List Char)} (hM : dumpLines M = y :: t) :
    isScalarDocLine y = false := by
  match M with
  | [] => simp [dumpLines] at hM
  | (k, v) :: rest =>
    rw [show dumpLines ((k, v) :: rest) = dumpEntry k v ++ dumpLines rest from rfl] at hM
    rcases dumpEntry_head_shape k v with ⟨w, t', he⟩ | ⟨t', he⟩
    · rw [he, List.cons_append] at hM
      injection hM with h1 _
      rw [← h1]
      simp [isScalarDocLine, hasColonSp_keyVal]
    · rw [he, List.cons_append] at hM
      injection hM with h1 _
      rw [← h1]
      simp [isScalarDocLine, endsColon_keyOnly]

theorem dumpEntry_ne_nil (k : List Char) (v : YVal) : dumpEntry k v ≠ [] := by
  rcases dumpEntry_head_shape k v with ⟨w, t', he⟩ | ⟨t', he⟩ <;> simp [he]

theorem dumpLines_ne_nil {M : List (List Char × YVal)} (hne : M ≠ []) :
    dumpLines M ≠ [] := by
  match M with
  | [] => exact absurd rfl hne
  | (k, v) :: rest =>
    rw [show dumpLines ((k, v) :: rest) = dumpEntry k v ++ dumpLines rest from rfl]
    simp [dumpEntry_ne_nil k v]

/-! ### Document-level inversion -/

theorem parseLines_dump {M : List (List Char × YVal)} (h : wfMap M = true) :
    parseLines (dumpLines M) = .ok (.map M) := by
  match hdl : dumpLines M with
  | [] =>
    have hM : M = [] := by
      cases M with
      | nil => rfl
      | cons e rest => exact absurd hdl (dumpLines_ne_nil (by simp))
    subst hM
    rfl
  | y :: t =>
    have hni : isItemLine y = false := dumpLines_head_not_item h hdl
    have hns : isScalarDocLine y = false := dumpLines_head_not_scalarDoc hdl
    unfold parseLines
    rw [if_neg (by simp [List.all_cons, hni])]
    match t with
    | [] =>
      simp only []
      rw [if_neg (by simp [hns])]
      rw [← hdl, parseMapF_dumpLines M h 1 (by rw [hdl]; rfl)]
      rfl
    | t2 :: ts =>
      simp only []
      rw [← hdl, parseMapF_dumpLines M h (dumpLines M).length (Nat.le_refl _)]
      rfl

theorem joinNl_head {c : Char} {cs : List Char} (t : List (List Char)) :
    (joinNl ((c :: cs) :: t)).head? = some c := by
  cases t <;> simp [joinNl]

theorem dumpLines_head_alpha {M : List (List Char × YVal)} (h : wfMap M = true)
    {y : List Char} {t : List (List Char)} (hdl : dumpLines M = y :: t) :
    ∃ c cs, y = c :: cs ∧ c.isAlpha = true := by
  match M with
  | [] => simp [dumpLines] at hdl
  | (k, v) :: rest =>
    have hk : wfKey k = true := by
      simp only [wfMap, List.all_cons, Bool.and_eq_true, wfEntry] at h
      exact h.1.1
    obtain ⟨c, cs', hkc, hca, _⟩ := wfKey_cases hk
    rw [show dumpLines ((k, v) :: rest) = dumpEntry k v ++ dumpLines rest from rfl] at hdl
    rcases dumpEntry_head_shape k v with ⟨w, t', he⟩ | ⟨t', he⟩
    · rw [he, List.cons_append] at hdl
      injection hdl with h1 _
      exact ⟨c, _, by rw [← h1, hkc, List.cons_append], hca⟩
    · rw [he, List.cons_append] at hdl
      injection hdl with h1 _
      exact ⟨c, _, by rw [← h1, hkc, List.cons_append], hca⟩

theorem yamlLoad_dump {M : List (List Char × YVal)} (h : wfMap M = true) :
    yamlLoad (joinNl (linesOf M)) = .ok (.map M) := by
  by_cases hM : M.isEmpty = true
  · rw [List.isEmpty_iff.mp hM]
    rfl
  · have hMne : M ≠ [] := fun he => hM (by rw [he]; rfl)
    rw [show linesOf M = dumpLines M by simp [linesOf, hM]]
    unfold yamlLoad
    rw [if_neg ?hne, splitNl_joinNl (dumpLines M) (dumpLines_ne_nil hMne)
      (fun l hl => (dumpLines_good h l hl).2.1), parseLines_dump h]
    case hne =>
      intro he
      match hdl : dumpLines M with
      | [] => exact absurd hdl (dumpLines_ne_nil hMne)
      | y :: t =>
        obtain ⟨c, cs, rfl, hca⟩ := dumpLines_head_alpha h hdl
        rw [hdl] at he
        have hh := congrArg List.head? he
        rw [joinNl_head, show "\x7b\x7d".toList = ['\x7b', '\x7d'] from rfl] at hh
        simp only [List.head?_cons, Option.some.injEq] at hh
        rw [hh] at hca
        exact absurd hca (by decide)

/-! ### First-occurrence search for the closing delimiter -/

theorem isPrefixOf_append_self :
    ∀ (a b : List Char), a.isPrefixOf (a ++ b) = true
  | [], _ => by simp [List.isPrefixOf]
  | c :: t, b => by simp [List.isPrefixOf, isPrefixOf_append_self t b]

theorem findFrom_self {pat s : List Char} (h : pat.isPrefixOf s = true) :
    findFrom pat s = some 0 := by
  cases s <;> simp [findFrom, h]

theorem findFrom_append_right {pat : List Char} :
    ∀ (a b : List Char),
      (∀ i, i < a.length → pat.isPrefixOf (a.drop i ++ b) = false) →
      findFrom pat (a ++ b) = (findFrom pat b).map (· + a.length)
  | [], b, _ => by
    cases hb : findFrom pat b <;> simp [hb]
  | c :: t, b, h => by
    have h0 : pat.isPrefixOf ((c :: t) ++ b) = false := by
      have := h 0 (by simp)
      simpa using this
    rw [List.cons_append, findFrom,
      if_neg (by rw [show c :: (t ++ b) = (c :: t) ++ b from rfl, h0]; simp)]
    rw [findFrom_append_right t b (fun i hi => by
      have := h (i + 1) (by simp; omega)
      simpa using this)]
    cases hb : findFrom pat b <;> simp [hb] <;> omega

theorem not_close_in_line {l : List Char} (hnl : '\n' ∉ l) {i : Nat} (hi : i < l.length)
    (X : List Char) :
    ("\n---\n".toList).isPrefixOf (l.drop i ++ X) = false := by
  have hdrop : l.drop i = l[i] :: l.drop (i + 1) := List.drop_eq_getElem_cons hi
  have hget : l[i] ∈ l := List.getElem_mem hi
  have hb : ('\n' == l[i]) = false :=
    beq_eq_false_iff_ne.mpr (Ne.symm (fun he => hnl (he ▸ hget)))
  rw [hdrop, List.cons_append,
    show "\n---\n".toList = '\n' :: "---\n".toList from rfl]
  simp only [List.isPrefixOf, hb, Bool.false_and]

theorem not_close_at_sep {l' : List Char} (hpre : ¬("---".toList <+: l')) (Z : List Char) :
    ("---\n".toList).isPrefixOf (l' ++ '\n' :: Z) = false := by
  match l' with
  | [] => simp [List.isPrefixOf, show "---\n".toList = ['-', '-', '-', '\n'] from rfl]
  | [a] => simp [List.isPrefixOf, show "---\n".toList = ['-', '-', '-', '\n'] from rfl]
  | [a, b] => simp [List.isPrefixOf, show "---\n".toList = ['-', '-', '-', '\n'] from rfl]
  | a :: b :: c :: t =>
    by_contra hcon
    rw [Bool.not_eq_false] at hcon
    simp only [show "---\n".toList = ['-', '-', '-', '\n'] from rfl, List.cons_append,
      List.isPrefixOf, Bool.and_eq_true, beq_iff_eq] at hcon
    obtain ⟨ha, hb', hc', _⟩ := hcon
    subst ha; subst hb'; subst hc'
    exact hpre ⟨t, rfl⟩

theorem joinNl_cons_append (l : List Char) (ls : List (List Char)) (Y : List Char) :
    ∃ Z, joinNl (l :: ls) ++ '\n' :: Y = l ++ '\n' :: Z := by
  cases ls with
  | nil => exact ⟨Y, rfl⟩
  | cons l2 rest =>
    exact ⟨joinNl (l2 :: rest) ++ '\n' :: Y, by
      rw [show joinNl (l :: l2 :: rest) = l ++ '\n' :: joinNl (l2 :: rest) from rfl]
      simp [List.append_assoc]⟩

theorem no_close_in_joinNl :
    ∀ (ls : List (List Char)), (∀ l ∈ ls, GoodLine l) → ∀ (B : List Char) (i : Nat),
      i < (joinNl ls).length →
      ("\n---\n".toList).isPrefixOf
        ((joinNl ls).drop i ++ ("\n---\n".toList ++ B)) = false
  | [], _, B, i, hi => by simp [joinNl] at hi
  | [l], hg, B, i, hi => by
    rw [show joinNl [l] = l from rfl] at hi ⊢
    exact not_close_in_line (hg l (List.mem_cons_self _ _)).2.1 hi _
  | l :: l2 :: rest, hg, B, i, hi => by
    have hgl := hg l (List.mem_cons_self _ _)
    have hgtail : ∀ a ∈ l2 :: rest, GoodLine a :=
      fun a ha => hg a (List.mem_cons_of_mem _ ha)
    rw [show joinNl (l :: l2 :: rest) = l ++ '\n' :: joinNl (l2 :: rest) from rfl] at hi ⊢
    rcases Nat.lt_trichotomy i l.length with hlt | heq | hgt
    · rw [List.drop_append_of_le_length (Nat.le_of_lt hlt), List.append_assoc]
      exact not_close_in_line hgl.2.1 hlt _
    · subst heq
      rw [List.drop_append_of_le_length (Nat.le_refl _), List.drop_length,
        List.nil_append]
      rw [show ('\n' :: joinNl (l2 :: rest)) ++ ("\n---\n".toList ++ B)
          = '\n' :: (joinNl (l2 :: rest) ++ ('\n' :: ("---\n".toList ++ B))) from by
        rw [show "\n---\n".toList = '\n' :: "---\n".toList from rfl]; simp]
      obtain ⟨Z, hZ⟩ := joinNl_cons_append l2 rest ("---\n".toList ++ B)
      rw [show "\n---\n".toList = '\n' :: "---\n".toList from rfl]
      simp only [List.isPrefixOf, beq_self_eq_true, Bool.true_and]
      rw [hZ]
      exact not_close_at_sep (hgtail l2 (List.mem_cons_self _ _)).2.2 Z
    · have hrec := no_close_in_joinNl (l2 :: rest) hgtail B (i - l.length - 1) (by
        simp only [List.length_append, List.length_cons] at hi
        omega)
      rw [show l ++ '\n' :: joinNl (l2 :: rest) = (l ++ ['\n']) ++ joinNl (l2 :: rest) from by
        simp]
      rw [show i = (l ++ ['\n']).length + (i - l.length - 1) from by
        simp only [List.length_append, List.length_singleton]
        omega]
      rw [List.drop_append]
      exact hrec

theorem pyFind_generate {ls : List (List Char)} (hg : ∀ l ∈ ls, GoodLine l)
    (B : List Char) :
    pyFind ("---\n".toList ++ (joinNl ls ++ ("\n---\n".toList ++ B)))
        "\n---\n".toList 4
      = some (4 + (joinNl ls).length) := by
  unfold pyFind
  rw [show (4 : Nat) = ("---\n".toList).length from rfl, List.drop_left]
  rw [findFrom_append_right (joinNl ls) ("\n---\n".toList ++ B)
    (fun i hi => no_close_in_joinNl ls hg B i hi)]
  rw [findFrom_self (isPrefixOf_append_self _ _)]
  simp [Nat.add_comm]

theorem linesOf_ne_nil (M : List (List Char × YVal)) : linesOf M ≠ [] := by
  unfold linesOf
  by_cases hM : M.isEmpty = true
  · simp [hM]
  · rw [if_neg hM]
    exact dumpLines_ne_nil (fun he => hM (by rw [he]; rfl))

theorem pyFalsy_map_cons (kv : List Char × YVal) (rest : List (List Char × YVal)) :
    pyFalsy (.map (kv :: rest)) = false := rfl

/-- The central codec fact: parsing a generated frontmatter block followed by
any body text recovers the body and the serialized mapping. -/
theorem parse_gen_core {L : List (List Char × YVal)} (h : wfMap L = true) (B : List Char) :
    parse_frontmatter (("---\n".toList ++ yamlDump L ++ "---\n".toList) ++ B)
      = (B, Yaml.map L) := by
  have hsplit : ("---\n".toList ++ yamlDump L ++ "---\n".toList) ++ B
      = "---\n".toList ++ (joinNl (linesOf L) ++ ("\n---\n".toList ++ B)) := by
    unfold yamlDump
    rw [show "\n---\n".toList = '\n' :: "---\n".toList from rfl]
    simp [List.append_assoc]
  rw [hsplit]
  unfold parse_frontmatter
  rw [if_neg (by
    intro hn
    exact hn (isPrefixOf_append_self _ _))]
  rw [pyFind_generate (linesOf_good h) B]
  have htake : (("---\n".toList ++ (joinNl (linesOf L) ++ ("\n---\n".toList ++ B))).take
      (4 + (joinNl (linesOf L)).length)).drop 4 = joinNl (linesOf L) := by
    rw [show "---\n".toList ++ (joinNl (linesOf L) ++ ("\n---\n".toList ++ B))
        = ("---\n".toList ++ joinNl (linesOf L)) ++ ("\n---\n".toList ++ B) from by
      simp [List.append_assoc]]
    rw [show (4 : Nat) + (joinNl (linesOf L)).length
        = ("---\n".toList ++ joinNl (linesOf L)).length from by
      simp [List.length_append]; omega]
    rw [List.take_left]
    rw [show (4 : Nat) = ("---\n".toList).length from rfl, List.drop_left]
  have hdrop : ("---\n".toList ++ (joinNl (linesOf L) ++ ("\n---\n".toList ++ B))).drop
      (4 + (joinNl (linesOf L)).length + 5) = B := by
    rw [show "---\n".toList ++ (joinNl (linesOf L) ++ ("\n---\n".toList ++ B))
        = (("---\n".toList ++ joinNl (linesOf L)) ++ "\n---\n".toList) ++ B from by
      simp [List.append_assoc]]
    rw [show (4 : Nat) + (joinNl (linesOf L)).length + 5
        = (("---\n".toList ++ joinNl (linesOf L)) ++ "\n---\n".toList).length from by
      simp [List.length_append]
      omega]
    rw [List.drop_left]
  simp only []
  rw [htake, hdrop, yamlLoad_dump h]
  match L with
  | [] => rfl
  | kv :: rest => simp only [pyFalsy_map_cons]; rfl

/-! ### Dictionary lemmas for `orderedMetadata` -/

theorem pyLookup_mem {k : List Char} {v : α} :
    ∀ {M : List (List Char × α)}, pyLookup k M = some v → (k, v) ∈ M
  | [], h => by simp [pyLookup] at h
  | (k', v') :: rest, h => by
    by_cases hk : k' = k
    · subst hk
      rw [pyLookup, if_pos rfl] at h
      injection h with h
      subst h
      exact List.mem_cons_self _ _
    · rw [pyLookup, if_neg hk] at h
      exact List.mem_cons_of_mem _ (pyLookup_mem h)

theorem containsKey_eq_isSome (k : List Char) :
    ∀ (M : List (List Char × α)), containsKey k M = (pyLookup k M).isSome
  | [] => rfl
  | (k', v') :: rest => by
    by_cases hk : k' = k
    · subst hk
      simp [containsKey, pyLookup]
    · rw [pyLookup, if_neg hk, ← containsKey_eq_isSome k rest]
      simp [containsKey, hk]

theorem containsKey_of_mem {kv : List Char × α} {M : List (List Char × α)}
    (h : kv ∈ M) : containsKey kv.1 M = true := by
  simp only [containsKey, List.any_eq_true, decide_eq_true_eq]
  exact ⟨kv, h, rfl⟩

theorem pyLookup_of_mem_nodup {M : List (List Char × α)}
    (hn : (M.map Prod.fst).Nodup) {kv : List Char × α} (h : kv ∈ M) :
    pyLookup kv.1 M = some kv.2 := by
  induction M with
  | nil => simp at h
  | cons e rest ih =>
    rcases List.mem_cons.mp h with h1 | h1
    · subst h1
      show pyLookup kv.1 ((kv.1, kv.2) :: rest) = some kv.2
      rw [pyLookup, if_pos rfl]
    · have hne : e.1 ≠ kv.1 := by
        simp only [List.map_cons, List.nodup_cons] at hn
        intro he
        exact hn.1 (he ▸ List.mem_map_of_mem Prod.fst h1)
      show pyLookup kv.1 ((e.1, e.2) :: rest) = some kv.2
      rw [pyLookup, if_neg hne]
      exact ih (by
        simp only [List.map_cons, List.nodup_cons] at hn
        exact hn.2) h1

theorem mem_prioPart {kv : List Char × YVal} :
    ∀ {ks : List (List Char)} {M : List (List Char × YVal)},
      kv ∈ prioPart ks M → kv ∈ M
  | [], _, h => by simp [prioPart] at h
  | k :: ks, M, h => by
    rw [prioPart] at h
    match hlk : pyLookup k M with
    | some v =>
      rw [hlk] at h
      rcases List.mem_cons.mp h with h1 | h1
      · exact h1 ▸ pyLookup_mem hlk
      · exact mem_prioPart h1
    | none =>
      rw [hlk] at h
      exact mem_prioPart h

theorem mem_addRest {kv : List Char × YVal} :
    ∀ {acc M : List (List Char × YVal)}, kv ∈ addRest acc M → kv ∈ acc ∨ kv ∈ M
  | acc, [], h => Or.inl h
  | acc, e :: rest, h => by
    rw [addRest] at h
    by_cases hc : containsKey e.1 acc = true
    · rw [if_pos hc] at h
      rcases mem_addRest h with h1 | h1
      · exact Or.inl h1
      · exact Or.inr (List.mem_cons_of_mem _ h1)
    · rw [if_neg hc] at h
      rcases mem_addRest h with h1 | h1
      · rcases List.mem_append.mp h1 with h2 | h2
        · exact Or.inl h2
        · simp only [List.mem_singleton] at h2
          exact Or.inr (h2 ▸ List.mem_cons_self _ _)
      · exact Or.inr (List.mem_cons_of_mem _ h1)

theorem mem_orderedMetadata {kv : List Char × YVal} {M : List (List Char × YVal)}
    (h : kv ∈ orderedMetadata M) : kv ∈ M := by
  rcases mem_addRest h with h1 | h1
  · exact mem_prioPart h1
  · exact h1

theorem wfMap_orderedMetadata {M : List (List Char × YVal)} (h : wfMap M = true) :
    wfMap (orderedMetadata M) = true := by
  simp only [wfMap, List.all_eq_true] at h ⊢
  exact fun kv hkv => h kv (mem_orderedMetadata hkv)

theorem containsKey_append_single {q : List Char} {acc : List (List Char × α)}
    {kv : List Char × α} (hne : kv.1 ≠ q) :
    containsKey q (acc ++ [kv]) = containsKey q acc := by
  simp [containsKey, List.any_append, hne]

theorem addRest_eq_filter :
    ∀ (M acc : List (List Char × YVal)), (M.map Prod.fst).Nodup →
      addRest acc M = acc ++ M.filter (fun kv => !containsKey kv.1 acc)
  | [], acc, _ => by simp [addRest]
  | e :: rest, acc, hn => by
    have hn' : (rest.map Prod.fst).Nodup := by
      simp only [List.map_cons, List.nodup_cons] at hn
      exact hn.2
    have hne : ∀ kv ∈ rest, kv.1 ≠ e.1 := by
      intro kv hkv he
      simp only [List.map_cons, List.nodup_cons] at hn
      exact hn.1 (he ▸ List.mem_map_of_mem Prod.fst hkv)
    rw [addRest]
    by_cases hc : containsKey e.1 acc = true
    · rw [if_pos hc, addRest_eq_filter rest acc hn']
      congr 1
      rw [List.filter_cons]
      simp [hc]
    · rw [if_neg hc, addRest_eq_filter rest (acc ++ [e]) hn']
      have hcong : rest.filter (fun kv => !containsKey kv.1 (acc ++ [e]))
          = rest.filter (fun kv => !containsKey kv.1 acc) :=
        List.filter_congr (fun kv hkv => by
          rw [containsKey_append_single (Ne.symm (hne kv hkv))])
      rw [hcong, List.filter_cons]
      have hfe : (!containsKey e.1 acc) = true := by simp [hc]
      rw [if_pos hfe]
      simp

theorem pyLookup_prioPart (q : List Char) :
    ∀ (ks : List (List Char)) (M : List (List Char × YVal)),
      pyLookup q (prioPart ks M) = if q ∈ ks then pyLookup q M else none
  | [], M => by simp [prioPart, pyLookup]
  | k :: ks, M => by
    rw [prioPart]
    match hlk : pyLookup k M with
    | some v =>
      by_cases hq : k = q
      · rw [pyLookup, if_pos hq, if_pos (List.mem_cons.mpr (Or.inl hq.symm)), ← hq, hlk]
      · rw [pyLookup, if_neg hq, pyLookup_prioPart q ks M]
        by_cases hmem : q ∈ ks
        · rw [if_pos hmem, if_pos (List.mem_cons.mpr (Or.inr hmem))]
        · rw [if_neg hmem, if_neg (by
            intro hm
            rcases List.mem_cons.mp hm with h1 | h1
            · exact hq h1.symm
            · exact hmem h1)]
    | none =>
      rw [pyLookup_prioPart q ks M]
      by_cases hmem : q ∈ ks
      · rw [if_pos hmem, if_pos (List.mem_cons.mpr (Or.inr hmem))]
      · rw [if_neg hmem]
        by_cases hq : k = q
        · rw [if_pos (List.mem_cons.mpr (Or.inl hq.symm)), ← hq, hlk]
        · rw [if_neg (by
            intro hm
            rcases List.mem_cons.mp hm with h1 | h1
            · exact hq h1.symm
            · exact hmem h1)]

theorem pyLookup_append (q : List Char) (a b : List (List Char × α)) :
    pyLookup q (a ++ b) =
      match pyLookup q a with
      | some v => some v
      | none => pyLookup q b := by
  induction a with
  | nil => simp [pyLookup]
  | cons e rest ih =>
    by_cases hq : e.1 = q
    · show pyLookup q ((e.1, e.2) :: (rest ++ b)) = _
      rw [pyLookup, if_pos hq]
      conv_rhs => rw [show pyLookup q (e :: rest) = pyLookup q ((e.1, e.2) :: rest) from rfl,
        pyLookup, if_pos hq]
    · show pyLookup q ((e.1, e.2) :: (rest ++ b)) = _
      rw [pyLookup, if_neg hq]
      conv_rhs => rw [show pyLookup q (e :: rest) = pyLookup q ((e.1, e.2) :: rest) from rfl,
        pyLookup, if_neg hq]
      exact ih

theorem pyLookup_filter_key (q : List Char) {p : List Char × YVal → Bool}
    (hp : ∀ v : YVal, p (q, v) = true) :
    ∀ (M : List (List Char × YVal)), pyLookup q (M.filter p) = pyLookup q M
  | [] => rfl
  | e :: rest => by
    rw [List.filter_cons]
    by_cases hq : e.1 = q
    · have he : e = (q, e.2) := by rw [← hq]
      rw [he, hp e.2]
      simp only [if_pos]
      rw [pyLookup, if_pos rfl]
      conv_rhs => rw [pyLookup, if_pos rfl]
    · by_cases hpe : p e = true
      · simp only [hpe, if_pos]
        rw [show pyLookup q ((e.1, e.2) :: List.filter p rest) = _ from rfl,
          pyLookup, if_neg hq, pyLookup_filter_key q hp rest]
        conv_rhs => rw [show pyLookup q (e :: rest) = pyLookup q ((e.1, e.2) :: rest) from rfl,
          pyLookup, if_neg hq]
      · simp only [hpe, if_neg, Bool.false_eq_true, not_false_eq_true]
        rw [pyLookup_filter_key q hp rest]
        conv_rhs => rw [show pyLookup q (e :: rest) = pyLookup q ((e.1, e.2) :: rest) from rfl,
          pyLookup, if_neg hq]

theorem pyLookup_orderedMetadata {M : List (List Char × YVal)}
    (hn : (M.map Prod.fst).Nodup) (q : List Char) :
    pyLookup q (orderedMetadata M) = pyLookup q M := by
  unfold orderedMetadata
  rw [addRest_eq_filter M (prioPart ordered_keys M) hn,
    pyLookup_append]
  rw [pyLookup_prioPart q ordered_keys M]
  by_cases hks : q ∈ ordered_keys
  · rw [if_pos hks]
    match hlk : pyLookup q M with
    | some v => rfl
    | none =>
      simp only []
      rw [pyLookup_filter_key q (fun v => ?_) M, hlk]
      rw [Bool.not_eq_true', containsKey_eq_isSome, pyLookup_prioPart q ordered_keys M,
        if_pos hks, hlk]
      rfl
  · rw [if_neg hks]
    simp only []
    rw [pyLookup_filter_key q (fun v => ?_) M]
    rw [Bool.not_eq_true', containsKey_eq_isSome, pyLookup_prioPart q ordered_keys M,
      if_neg hks]
    rfl

theorem pyDictEq_orderedMetadata {M : List (List Char × YVal)}
    (hn : (M.map Prod.fst).Nodup) :
    pyDictEq (orderedMetadata M) M = true := by
  unfold pyDictEq
  rw [Bool.and_eq_true]
  constructor
  · rw [List.all_eq_true]
    intro kv hkv
    have h1 : pyLookup kv.1 M = some kv.2 :=
      pyLookup_of_mem_nodup hn (mem_orderedMetadata hkv)
    simp [h1]
  · rw [List.all_eq_true]
    intro kv hkv
    have h1 : pyLookup kv.1 (orderedMetadata M) = some kv.2 := by
      rw [pyLookup_orderedMetadata hn]
      exact pyLookup_of_mem_nodup hn hkv
    simp [h1]

theorem prioPart_keys :
    ∀ (ks : List (List Char)) (M : List (List Char × YVal)),
      (prioPart ks M).map Prod.fst = ks.filter (fun k => containsKey k M)
  | [], _ => rfl
  | k :: ks, M => by
    rw [prioPart, List.filter_cons]
    match hlk : pyLookup k M with
    | some v =>
      have hck : containsKey k M = true := by rw [containsKey_eq_isSome, hlk]; rfl
      rw [List.map_cons, prioPart_keys ks M]
      simp [hck]
    | none =>
      have hck : containsKey k M = false := by rw [containsKey_eq_isSome, hlk]; rfl
      rw [prioPart_keys ks M]
      simp [hck]

theorem map_fst_filter_key {p : List Char → Bool} :
    ∀ (M : List (List Char × YVal)),
      (M.filter (fun kv => p kv.1)).map Prod.fst = (M.map Prod.fst).filter p
  | [] => rfl
  | kv :: rest => by
    rw [List.filter_cons, List.map_cons, List.filter_cons]
    by_cases hp : p kv.1 = true
    · simp only [hp, if_pos, List.map_cons, map_fst_filter_key rest]
    · simp only [hp, Bool.false_eq_true, if_neg, not_false_eq_true,
        map_fst_filter_key rest]

/-- The key order actually emitted by `generate_frontmatter`: the
eight-entry priority list first (each key if present), then the remaining
keys in insertion order. -/
theorem orderedMetadata_keys {M : List (List Char × YVal)}
    (hn : (M.map Prod.fst).Nodup) :
    (orderedMetadata M).map Prod.fst
      = ordered_keys.filter (fun k => containsKey k M)
        ++ (M.map Prod.fst).filter (fun k => !decide (k ∈ ordered_keys)) := by
  unfold orderedMetadata
  rw [addRest_eq_filter M _ hn, List.map_append, prioPart_keys]
  congr 1
  have hpt : ∀ kv ∈ M,
      (!containsKey kv.1 (prioPart ordered_keys M)) = !decide (kv.1 ∈ ordered_keys) := by
    intro kv hkv
    rw [containsKey_eq_isSome, pyLookup_prioPart]
    by_cases hm : kv.1 ∈ ordered_keys
    · rw [if_pos hm]
      have hck : containsKey kv.1 M = true := containsKey_of_mem hkv
      rw [containsKey_eq_isSome] at hck
      simp [hm, hck]
    · rw [if_neg hm]
      simp [hm]
  rw [List.filter_congr hpt]
  exact map_fst_filter_key (p := fun k => !decide (k ∈ ordered_keys)) M

/-! ## JSON model (modelled fragment)

Modelled from the spec: the `json` library is an out-of-scope collaborator;
`Json` and `jsonParse` model `json.loads` over objects, arrays, strings
(with the common escapes), integers, booleans and null. -/

/-- A JSON value. -/
inductive Json where
  | str (s : List Char)
  | int (n : Int)
  | bool (b : Bool)
  | null
  | arr (xs : List Json)
  | obj (kvs : List (List Char × Json))
deriving Repr

/-- JSON whitespace skipping. -/
def skipWs : List Char → List Char
  | [] => []
  | c :: r => if c = ' ' ∨ c = '\n' ∨ c = '\t' ∨ c = '\r' then skipWs r else c :: r

/-- Parse a JSON string body (after the opening quote); returns the decoded
characters and the remaining input past the closing quote. -/
def jstr : List Char → Except Unit (List Char × List Char)
  | [] => .error ()
  | c :: r =>
    if c = '"' then .ok ([], r)
    else if c = '\\' then
      match r with
      | [] => .error ()
      | e :: r' =>
        let esc : Except Unit Char :=
          if e = 'n' then .ok '\n'
          else if e = 't' then .ok '\t'
          else if e = 'r' then .ok '\r'
          else if e = '"' then .ok '"'
          else if e = '\\' then .ok '\\'
          else if e = '/' then .ok '/'
          else .error ()
        match esc with
        | .error er => .error er
        | .ok ec =>
          match jstr r' with
          | .ok (str, rest) => .ok (ec :: str, rest)
          | .error er => .error er
    else
      match jstr r with
      | .ok (str, rest) => .ok (c :: str, rest)
      | .error er => .error er

/-- Parse a JSON integer numeral. -/
def jnum (s : List Char) : Except Unit (Int × List Char) :=
  if s.head? = some '-' then
    let ds := s.tail.takeWhile Char.isDigit
    if ds.isEmpty then .error ()
    else .ok (-(parseNat ds : Int), s.tail.dropWhile Char.isDigit)
  else
    let ds := s.takeWhile Char.isDigit
    if ds.isEmpty then .error ()
    else .ok ((parseNat ds : Int), s.dropWhile Char.isDigit)

mutual

/-- Parse one JSON value (fuelled). -/
def jval : Nat → List Char → Except Unit (Json × List Char)
  | 0, _ => .error ()
  | fuel + 1, s0 =>
    match skipWs s0 with
    | [] => .error ()
    | c :: r =>
      if c = '"' then
        match jstr r with
        | .ok (str, rest) => .ok (.str str, rest)
        | .error er => .error er
      else if c = '\x7b' then jobj fuel (skipWs r)
      else if c = '[' then jarr fuel (skipWs r)
      else if c = 't' then
        if "rue".toList.isPrefixOf r then .ok (.bool true, r.drop 3) else .error ()
      else if c = 'f' then
        if "alse".toList.isPrefixOf r then .ok (.bool false, r.drop 4) else .error ()
      else if c = 'n' then
        if "ull".toList.isPrefixOf r then .ok (.null, r.drop 3) else .error ()
      else
        match jnum (c :: r) with
        | .ok (n, rest) => .ok (.int n, rest)
        | .error er => .error er

/-- Parse a JSON object after the opening brace (whitespace skipped). -/
def jobj : Nat → List Char → Except Unit (Json × List Char)
  | 0, _ => .error ()
  | fuel + 1, s =>
    match s with
    | '\x7d' :: rest => .ok (.obj [], rest)
    | _ => jmembers fuel s []

/-- Parse the members of a JSON object. -/
def jmembers : Nat → List Char → List (List Char × Json) →
    Except Unit (Json × List Char)
  | 0, _, _ => .error ()
  | fuel + 1, s, acc =>
    match skipWs s with
    | '"' :: r =>
      match jstr r with
      | .error er => .error er
      | .ok (k, rest1) =>
        match skipWs rest1 with
        | ':' :: rest2 =>
          match jval fuel rest2 with
          | .error er => .error er
          | .ok (v, rest3) =>
            match skipWs rest3 with
            | ',' :: rest4 => jmembers fuel rest4 (acc ++ [(k, v)])
            | '\x7d' :: rest4 => .ok (.obj (acc ++ [(k, v)]), rest4)
            | _ => .error ()
        | _ => .error ()
    | _ => .error ()

/-- Parse a JSON array after the opening bracket (whitespace skipped). -/
def jarr : Nat → List Char → Except Unit (Json × List Char)
  | 0, _ => .error ()
  | fuel + 1, s =>
    match s with
    | ']' :: rest => .ok (.arr [], rest)
    | _ => jitems fuel s []

/-- Parse the items of a JSON array. -/
def jitems : Nat → List Char → List Json → Except Unit (Json × List Char)
  | 0, _, _ => .error ()
  | fuel + 1, s, acc =>
    match jval fuel s with
    | .error er => .error er
    | .ok (v, rest1) =>
      match skipWs rest1 with
      | ',' :: rest2 => jitems fuel rest2 (acc ++ [v])
      | ']' :: rest2 => .ok (.arr (acc ++ [v]), rest2)
      | _ => .error ()

end

/-- Modelled from the spec: `json.loads` on the modelled fragment; fails
unless the whole input is one JSON document. -/
def jsonParse (s : List Char) : Except Unit Json :=
  match jval (2 * s.length + 2) s with
  | .error er => .error er
  | .ok (v, rest) => if (skipWs rest).isEmpty then .ok v else .error ()

/-! ## `prompt_manager.py` -/

/-- The default system prompt of `PromptManager._load_prompts` (the
repository ships no `config/prompts.yaml`, so the built-in defaults are
used). -/
def systemPrompt : List Char :=
  ("You are an AI assistant helping to organize and enhance notes.\n"
    ++ "Your task is to clean up raw notes, add relevant hashtags, and create summaries.\n\n"
    ++ "Always respond with a JSON object containing:\n"
    ++ "- content: The enhanced note content\n"
    ++ "- metadata: Object with summary and tags").toList

/-- The default user prompt template text before the `note_content`
placeholder. -/
def userPromptPre : List Char :=
  ("Please process this note:\n1. Clean up formatting and grammar\n"
    ++ "2. Convert to clear bullet points where appropriate\n"
    ++ "3. Generate 3-5 relevant hashtags\n4. Create a one-line summary\n\n"
    ++ "Note content:\n").toList

/-- The default user prompt template text after the placeholder (with the
doubled braces of the Python template already collapsed by `str.format`). -/
def userPromptPost : List Char :=
  ("\n\nRespond with JSON in this format:\n\x7b\n  \"content\": \"enhanced note content here\",\n"
    ++ "  \"metadata\": \x7b\n    \"summary\": \"one line summary\",\n"
    ++ "    \"tags\": [\"#tag1\", \"#tag2\"]\n  \x7d\n\x7d").toList

/-- `PromptManager.format_note_prompt`: the `(system, user)` prompt pair. -/
def format_note_prompt (note_content : List Char) : List Char × List Char :=
  (systemPrompt, userPromptPre ++ note_content ++ userPromptPost)

/-- The code-fence stripping at the top of `parse_claude_response`. -/
def stripFences (response : List Char) : List Char :=
  let rc := pyStrip response
  if "```json".toList.isPrefixOf rc then
    let lines := splitNl rc
    if lines.head?.map pyStrip = some "```json".toList
        ∧ lines.getLast?.map pyStrip = some "```".toList then
      joinNl ((lines.drop 1).dropLast)
    else rc
  else if "```".toList.isPrefixOf rc then
    let lines := splitNl rc
    if lines.head?.map pyStrip = some "```".toList
        ∧ lines.getLast?.map pyStrip = some "```".toList then
      joinNl ((lines.drop 1).dropLast)
    else rc
  else rc

/-- The fixed fallback of `parse_claude_response`: the raw response as
content, with the error summary and tag. -/
def fallbackPair (response : List Char) : Json × Json :=
  (.str response,
   .obj [("summary".toList, .str "Failed to parse AI response".toList),
         ("tags".toList, .arr [.str "#processing-error".toList])])

/-- One tag through the normalization loop; a non-string tag raises
(`tag.startswith` on a non-string is an `AttributeError`). -/
def normTag : Json → Option Json
  | .str t => some (.str (if "#".toList.isPrefixOf t then t else '#' :: t))
  | _ => none

/-- The tag-normalization loop. -/
def normTags : List Json → Option (List Json)
  | [] => some []
  | t :: rest =>
    match normTag t with
    | none => none
    | some t' => (normTags rest).map (t' :: ·)

/-- Is this array element the string `"tags"`?  (`'tags' in metadata` on a
list checks element membership.) -/
def isTagsStr : Json → Bool
  | .str s => s = "tags".toList
  | _ => false

/-- Unescape `\n` sequences in a string content value (`content.replace`). -/
def replEscNl : List Char → List Char
  | [] => []
  | [c] => [c]
  | c :: e :: r' =>
    if c = '\\' ∧ e = 'n' then '\n' :: replEscNl r'
    else c :: replEscNl (e :: r')

/-- The content post-processing of `parse_claude_response`. -/
def unescContent : Json → Json
  | .str s => .str (replEscNl s)
  | v => v

/-- `PromptManager.parse_claude_response`.  `.ok` is a normal return
(including the fallback); `.error` models an exception escaping the
function — its `except` clause catches only `json.JSONDecodeError` and
`ValueError`, so the `AttributeError`/`TypeError` paths below raise. -/
def parse_claude_response (response : List Char) : Except Unit (Json × Json) :=
  let rc := stripFences response
  match jsonParse rc with
  | .error _ => .ok (fallbackPair response)
  | .ok parsed =>
    match parsed with
    | .obj kvs =>
      match pyLookup "content".toList kvs with
      | none => .ok (fallbackPair response)
      | some content =>
        match pyLookup "metadata".toList kvs with
        | none => .ok (fallbackPair response)
        | some metadata =>
          match metadata with
          | .obj mkvs =>
            match pyLookup "tags".toList mkvs with
            | some (.arr tags) =>
              match normTags tags with
              | none => .error ()
              | some tags' =>
                .ok (unescContent content, .obj (pyInsert "tags".toList (.arr tags') mkvs))
            | _ => .ok (unescContent content, .obj mkvs)
          | .arr xs =>
            if xs.any isTagsStr then .error ()
            else .ok (unescContent content, .arr xs)
          | _ => .error ()
    | _ => .ok (fallbackPair response)

/-! ## `pipeline.py` -/

/-- `ProcessingResult` — modelled from the spec: the outcome enum that
`note_processor.py` and the test suite import from `pipeline` but that is
absent from `src/src/pipeline.py` itself.  Outcomes are `SUCCESS`,
`FILTERED`, `VALIDATION_FAILED`, `LLM_FAILED` and `ERROR`. -/
inductive ProcessingResult where
  | SUCCESS
  | FILTERED
  | VALIDATION_FAILED
  | LLM_FAILED
  | ERROR
deriving DecidableEq, Repr

/-- The raw bytes of a note file: valid UTF-8 (carrying its decoded text)
or undecodable bytes of a given length. -/
inductive RawBytes where
  | text (s : List Char)
  | invalid (len : Nat)
deriving DecidableEq, Repr

/-- Python `len(content)` for the raw bytes. -/
def RawBytes.byteLen : RawBytes → Nat
  | .text s => s.foldl (fun a c => a + c.utf8Size) 0
  | .invalid len => len

/-- `pipeline.Note` as the batch processor constructs it (the input fields;
the fields mutated by the stages are threaded explicitly below). -/
structure NoteIn where
  file_path : List Char
  name : List Char
  content : RawBytes
deriving DecidableEq, Repr

/-- The configuration fields the pipeline reads. -/
structure Config where
  max_note_size_kb : Nat
deriving DecidableEq, Repr

/-- `pipeline.BYTES_PER_KB`. -/
def BYTES_PER_KB : Nat := 1024

/-- The storage/LLM side effects performed during one `process_note` call:
`rename_file` calls, `update_file` calls (path, new name, written text),
and the number of `send_message` calls. -/
structure Effects where
  renames : List (List Char × List Char)
  updates : List (List Char × List Char × List Char)
  llmCalls : Nat
deriving DecidableEq, Repr

/-- No effects. -/
def Effects.noops : Effects := ⟨[], [], 0⟩

/-- The LLM adapter (`claude_client.send_message`): a function from the
`(system, user)` prompt pair to a response text, or a raised transport
error. -/
def LLM : Type := List Char × List Char → Except Unit (List Char)

/-- The skip-directive test of `_filter`: `ignore_parse is True or
(isinstance(ignore_parse, str) and ignore_parse.lower() == 'true')`. -/
def igTrue : YVal → Bool
  | .s (.bool true) => true
  | .s (.str t) => lowerStr t = "true".toList
  | _ => false

/-- The result of `_filter`, instrumented with which verdict fired.
`attrError` models the uncaught `AttributeError` when the parsed
frontmatter is a truthy non-mapping (`frontmatter.get` on a non-dict),
which the `process_note` boundary turns into the error outcome. -/
inductive FilterRes where
  | underscore
  | decodeFail
  | ignoreSkip
  | hashMatch
  | attrError
  | pass (text_content body : List Char) (fm : List (List Char × YVal))
deriving DecidableEq, Repr

/-- `NotePipeline._filter`. -/
def filterStage (note : NoteIn) : FilterRes :=
  if "_".toList.isPrefixOf note.name then .underscore
  else
    match note.content with
    | .invalid _ => .decodeFail
    | .text s =>
      let pr := parse_frontmatter s
      match pr.2 with
      | .map kvs =>
        let ig :=
          match pyLookup "ignoreParse".toList kvs with
          | some v => v
          | none => .s (.bool false)
        if igTrue ig then .ignoreSkip
        else if containsKey "note_hash".toList kvs then
          if pyLookup "note_hash".toList kvs
              = some (.s (.str (calculate_file_hash pr.1))) then .hashMatch
          else .pass s pr.1 kvs
        else .pass s pr.1 kvs
      | _ => .attrError

/-- The result of `_enhance_with_claude`. -/
inductive EnhanceRes where
  | fail
  | ok (content : Json) (meta : List (List Char × Json))

/-- `NotePipeline._enhance_with_claude`: formats the prompt, sends it,
parses the reply, and merges the reply metadata into the (empty) note
metadata.  Any exception inside — transport, response parsing (see
`parse_claude_response`), or `note.metadata.update` on a non-mapping
metadata value — is caught by its `except Exception` and reported as
failure.  The LLM call count is returned alongside. -/
def enhanceStage (llm : LLM) (body : List Char) : EnhanceRes × Nat :=
  match llm (format_note_prompt body) with
  | .error _ => (.fail, 1)
  | .ok resp =>
    match parse_claude_response resp with
    | .error _ => (.fail, 1)
    | .ok (content, metadata) =>
      match metadata with
      | .obj mkvs => (.ok content (pyUpdate [] mkvs), 1)
      | _ => (.fail, 1)

/-- `NotePipeline._generate_metadata`: hash the enhanced content, stamp
`processed_datetime` (the caller's `now` string) and `note_hash`, then
default `summary` and `tags` if absent. -/
def generateMetadata (meta : List (List Char × Json)) (enhanced : List Char)
    (now : List Char) : List (List Char × Json) :=
  let m1 := pyUpdate meta
    [("processed_datetime".toList, .str now),
     ("note_hash".toList, .str (calculate_file_hash enhanced))]
  let m2 := pySetdefault "summary".toList (.str "No summary generated".toList) m1
  pySetdefault "tags".toList (.arr []) m2

/-- Scalars of an LLM metadata list value (modelled YAML fragment). -/
def jsonAtoms : List Json → Option (List YScalar)
  | [] => some []
  | .str s :: rest => (jsonAtoms rest).map (.str s :: ·)
  | .int n :: rest => (jsonAtoms rest).map (.int n :: ·)
  | .bool b :: rest => (jsonAtoms rest).map (.bool b :: ·)
  | .null :: rest => (jsonAtoms rest).map (.null :: ·)
  | _ => none

/-- An LLM metadata value as a value of the modelled YAML fragment; `none`
for nested containers, which lie outside the modelled emitter and are
reported through the pipeline's error outcome. -/
def jsonToYVal : Json → Option YVal
  | .str s => some (.s (.str s))
  | .int n => some (.s (.int n))
  | .bool b => some (.s (.bool b))
  | .null => some (.s .null)
  | .arr xs => (jsonAtoms xs).map .list
  | .obj _ => none

/-- A whole metadata mapping into the modelled YAML fragment. -/
def metaToYVal : List (List Char × Json) → Option (List (List Char × YVal))
  | [] => some []
  | (k, v) :: rest =>
    match jsonToYVal v with
    | none => none
    | some v' => (metaToYVal rest).map ((k, v') :: ·)

/-- The parent-directory prefix of a path (up to and including the last
slash), for the in-memory path update of `_mark_as_processing`. -/
def dirOf (p : List Char) : List Char :=
  (p.reverse.dropWhile (fun c => c ≠ '/')).reverse

/-- `NotePipeline.process_note`, instrumented with the outcome category of
the branch that returned (the categories that `note_processor.py` and the
test suite name via `ProcessingResult`) and the effects performed.  The
stages run in source order: filter, validate, mark-as-processing (the
rename), enhance, generate metadata, save.  `now` is the formatted
timestamp `_generate_metadata` would read from the clock. -/
def processNoteR (cfg : Config) (llm : LLM) (now : List Char) (note : NoteIn) :
    ProcessingResult × Effects :=
  match filterStage note with
  | .underscore => (.FILTERED, Effects.noops)
  | .decodeFail => (.FILTERED, Effects.noops)
  | .ignoreSkip => (.FILTERED, Effects.noops)
  | .hashMatch => (.FILTERED, Effects.noops)
  | .attrError => (.ERROR, Effects.noops)
  | .pass _ body _ =>
    if note.content.byteLen > cfg.max_note_size_kb * BYTES_PER_KB then
      (.VALIDATION_FAILED, Effects.noops)
    else
      let newName := '_' :: note.name
      let newPath := dirOf note.file_path ++ newName
      let renames := [(note.file_path, newName)]
      match enhanceStage llm body with
      | (.fail, n) => (.LLM_FAILED, ⟨renames, [], n⟩)
      | (.ok content mkvs, n) =>
        match content with
        | .str enhanced =>
          let meta := generateMetadata mkvs enhanced now
          match metaToYVal meta with
          | none => (.ERROR, ⟨renames, [], n⟩)
          | some M =>
            let finalContent := generate_frontmatter M ++ enhanced
            let finalName :=
              if "_".toList.isPrefixOf newName then newName.drop 1 else newName
            (.SUCCESS, ⟨renames, [(newPath, finalName, finalContent)], n⟩)
        | _ => (.ERROR, ⟨renames, [], n⟩)

/-- `NotePipeline.process_note`'s literal return value: the source returns
only a boolean, `True` exactly on the success path. -/
def process_note (cfg : Config) (llm : LLM) (now : List Char) (note : NoteIn) :
    Bool × Effects :=
  let r := processNoteR cfg llm now note
  (r.1 = .SUCCESS, r.2)

/-! ## `note_processor.py`'s view of the pipeline return -/

/-- A Python value as the caller's tuple unpacking sees it: a bare boolean
or a `(success, result)` pair. -/
inductive PyRet where
  | bool (b : Bool)
  | pair (success : Bool) (result : ProcessingResult)
deriving DecidableEq, Repr

/-- What `src/src/pipeline.py` actually hands back to its caller. -/
def process_note_ret (cfg : Config) (llm : LLM) (now : List Char) (note : NoteIn) :
    PyRet :=
  .bool (process_note cfg llm now note).1

/-- The unpacking `success, result = self.pipeline.process_note(note)` in
`NoteProcessor.process_notes` (and in `test_pipeline.py`); unpacking a bare
boolean raises `TypeError`. -/
def unpackPair : PyRet → Except Unit (Bool × ProcessingResult)
  | .pair b r => .ok (b, r)
  | .bool _ => .error ()

/-! ## Claim-level helpers -/

/-- The four canonical metadata keys of the data model. -/
def canonical4 : List (List Char) :=
  ["processed_datetime".toList, "note_hash".toList, "summary".toList, "tags".toList]

/-- Is a parsed YAML document a mapping? -/
def Yaml.isMapping : Yaml → Bool
  | .map _ => true
  | _ => false

/-- Is a JSON value an object? -/
def Json.isObj : Json → Bool
  | .obj _ => true
  | _ => false

/-- The key order the spec sentence behind C4 describes (a refinement
definition following the claim's words, to compare against the source's
`orderedMetadata`): the four canonical keys first, each if present, then
all remaining keys in insertion order. -/
def claimKeyOrder (M : List (List Char × YVal)) : List (List Char) :=
  canonical4.filter (fun k => containsKey k M)
    ++ (M.map Prod.fst).filter (fun k => !decide (k ∈ canonical4))

/-- `_filter` under an underscore-free name and a mapping frontmatter,
written as its decision tree. -/
theorem filterStage_map (path : List Char) {name s body : List Char}
    {kvs : List (List Char × YVal)}
    (hname : "_".toList.isPrefixOf name = false)
    (hparse : parse_frontmatter s = (body, .map kvs)) :
    filterStage ⟨path, name, .text s⟩ =
      (if igTrue (match pyLookup "ignoreParse".toList kvs with
          | some v => v
          | none => .s (.bool false)) then .ignoreSkip
       else if containsKey "note_hash".toList kvs then
         if pyLookup "note_hash".toList kvs
             = some (.s (.str (calculate_file_hash body))) then FilterRes.hashMatch
         else .pass s body kvs
       else .pass s body kvs) := by
  unfold filterStage
  rw [if_neg (by rw [hname]; simp)]
  simp only []
  rw [hparse]

/-- Characterization of the skip-directive test over the optional looked-up
value (absence defaults to Python `False`). -/
theorem igTrue_iff (o : Option YVal) :
    igTrue (match o with | some v => v | none => .s (.bool false)) = true
      ↔ (o = some (.s (.bool true))
         ∨ ∃ t, o = some (.s (.str t)) ∧ lowerStr t = "true".toList) := by
  match o with
  | none => simp [igTrue]
  | some v =>
    match v with
    | .s (.bool true) => simp [igTrue]
    | .s (.bool false) => simp [igTrue]
    | .s (.str t) => simp [igTrue]
    | .s (.int n) => simp [igTrue]
    | .s .null => simp [igTrue]
    | .list xs => simp [igTrue]

/-! ## The claims -/

/-- C1 (code bug): `process_note` is specified (and consumed by
`note_processor.py` and the test suite) as returning a pair
`(success, ProcessingResult)`, but `src/src/pipeline.py` returns a bare
boolean — and defines no `ProcessingResult` at all, although
`note_processor.py` imports it from `pipeline`.  Evaluating the code: the
caller's tuple unpacking of the returned boolean raises `TypeError` on any
note whatsoever (here a concrete one). -/
theorem C1_return_shape_bug :
    unpackPair (process_note_ret ⟨1⟩ (fun _ => .error ()) "Jan 07, 2025 14:30:25 UTC".toList
      ⟨"/inbox/a.md".toList, "a.md".toList, .text "hello".toList⟩) = .error () := rfl

/-- C3: round-trip — for a metadata mapping over the four canonical keys
(with scalar/list values of the modelled codec fragment, duplicate-free as
a Python dict) and any body not starting with a delimiter line,
`parse(generate(M) + B)` yields the body `B` unchanged and a metadata
mapping equal, as a Python dict, to `M` (value types preserved; the
serialized entry order is `orderedMetadata M`). -/
theorem C3_roundtrip {M : List (List Char × YVal)} {B : List Char}
    (hkeys : ∀ k ∈ M.map Prod.fst, k ∈ canonical4)
    (hn : (M.map Prod.fst).Nodup)
    (hvals : M.all (fun kv => wfVal kv.2) = true)
    (hB : "---\n".toList.isPrefixOf B = false) :
    parse_frontmatter (generate_frontmatter M ++ B)
      = (B, Yaml.map (orderedMetadata M))
    ∧ pyDictEq (orderedMetadata M) M = true := by
  have hwf : wfMap M = true := by
    rw [wfMap, List.all_eq_true]
    intro kv hkv
    rw [wfEntry, Bool.and_eq_true]
    refine ⟨?_, List.all_eq_true.mp hvals kv hkv⟩
    have hc := hkeys kv.1 (List.mem_map_of_mem _ hkv)
    simp only [canonical4, List.mem_cons, List.mem_singleton] at hc
    rcases hc with h | h | h | (h | h)
    · rw [h]; decide
    · rw [h]; decide
    · rw [h]; decide
    · rw [h]; decide
    · simp at h
  exact ⟨parse_gen_core (wfMap_orderedMetadata hwf) B, pyDictEq_orderedMetadata hn⟩

/-- C3 witness: the round-trip at a concrete four-key mapping and body. -/
theorem C3_roundtrip_witness :
    parse_frontmatter (generate_frontmatter
        [("processed_datetime".toList, .s (.str "Jan 07, 2025 14:30:25 UTC".toList)),
         ("note_hash".toList, .s (.str "sha256:0a1b".toList)),
         ("summary".toList, .s (.str "a short note".toList)),
         ("tags".toList, .list [.str "#alpha".toList, .str "#beta".toList])]
        ++ "body text\n".toList)
      = ("body text\n".toList, Yaml.map (orderedMetadata
        [("processed_datetime".toList, .s (.str "Jan 07, 2025 14:30:25 UTC".toList)),
         ("note_hash".toList, .s (.str "sha256:0a1b".toList)),
         ("summary".toList, .s (.str "a short note".toList)),
         ("tags".toList, .list [.str "#alpha".toList, .str "#beta".toList])]))
    ∧ pyDictEq (orderedMetadata
        [("processed_datetime".toList, .s (.str "Jan 07, 2025 14:30:25 UTC".toList)),
         ("note_hash".toList, .s (.str "sha256:0a1b".toList)),
         ("summary".toList, .s (.str "a short note".toList)),
         ("tags".toList, .list [.str "#alpha".toList, .str "#beta".toList])])
        [("processed_datetime".toList, .s (.str "Jan 07, 2025 14:30:25 UTC".toList)),
         ("note_hash".toList, .s (.str "sha256:0a1b".toList)),
         ("summary".toList, .s (.str "a short note".toList)),
         ("tags".toList, .list [.str "#alpha".toList, .str "#beta".toList])] = true :=
  C3_roundtrip (by decide) (by decide) (by decide) (by decide)

/-- A two-entry mapping of non-canonical keys, written in this insertion
order, exercising the C4 key-order claim. -/
def c4Pair : List (List Char × YVal) :=
  [("original_length".toList, .s (.str "n".toList)),
   ("para_suggestion".toList, .s (.str "x".toList))]

/-- C4 counterexample: the claim says keys beyond the four canonical ones
are emitted in insertion order, but `generate_frontmatter`'s priority list
has EIGHT entries; for `{original_length: "n", para_suggestion: "x"}` (that
insertion order) the code emits `para_suggestion` first — the reverse of
the claimed order. -/
theorem C4_counterexample :
    (orderedMetadata c4Pair).map Prod.fst ≠ claimKeyOrder c4Pair
    ∧ generate_frontmatter c4Pair
      = "---\npara_suggestion: x\noriginal_length: n\n---\n".toList := by
  constructor
  · decide
  · rfl

/-- C4 (amended): `generate_frontmatter` emits keys in the fixed order of
its eight-entry priority list — `processed_datetime, note_hash, summary,
tags, para_suggestion, confidence_score, processing_version,
original_length` — each if present, followed by the remaining keys of the
mapping in their insertion order. -/
theorem C4_key_order {M : List (List Char × YVal)} (hn : (M.map Prod.fst).Nodup) :
    generate_frontmatter M
      = "---\n".toList ++ yamlDump (orderedMetadata M) ++ "---\n".toList
    ∧ (orderedMetadata M).map Prod.fst
      = ordered_keys.filter (fun k => containsKey k M)
        ++ (M.map Prod.fst).filter (fun k => !decide (k ∈ ordered_keys)) :=
  ⟨rfl, orderedMetadata_keys hn⟩

/-- A mapping mixing priority and non-priority keys for the C4 witness. -/
def c4Mixed : List (List Char × YVal) :=
  [("extra".toList, .s (.str "e".toList)),
   ("summary".toList, .s (.str "s".toList)),
   ("para_suggestion".toList, .s (.str "x".toList))]

/-- C4 witness: the amended key order at a concrete mapping. -/
theorem C4_key_order_witness :
    generate_frontmatter c4Mixed
      = "---\n".toList ++ yamlDump (orderedMetadata c4Mixed) ++ "---\n".toList
    ∧ (orderedMetadata c4Mixed).map Prod.fst
      = ordered_keys.filter (fun k => containsKey k c4Mixed)
        ++ (c4Mixed.map Prod.fst).filter (fun k => !decide (k ∈ ordered_keys)) :=
  C4_key_order (by decide)

/-- C2: idempotence of the second run.  For a saved note whose content is a
generated frontmatter block (of a well-formed, duplicate-free mapping whose
`note_hash` entry is the hash of the saved body `E`) followed by `E`, and
whose name carries no lock marker, a second `process_note` run takes the
filtered outcome with no rename, no write and no LLM call; and the body the
filter's unchanged-content check re-hashes is exactly the body `E` that the
persist-time `note_hash` was computed over — the two hash scopes agree. -/
theorem C2_second_run_filtered {cfg : Config} {llm : LLM} {now : List Char}
    {path name E : List Char} {M : List (List Char × YVal)}
    (hn : (M.map Prod.fst).Nodup)
    (hwf : wfMap M = true)
    (hhash : pyLookup "note_hash".toList M
      = some (.s (.str (calculate_file_hash E))))
    (hname : "_".toList.isPrefixOf name = false) :
    processNoteR cfg llm now ⟨path, name, .text (generate_frontmatter M ++ E)⟩
      = (.FILTERED, Effects.noops)
    ∧ (parse_frontmatter (generate_frontmatter M ++ E)).1 = E := by
  have hOM : wfMap (orderedMetadata M) = true := wfMap_orderedMetadata hwf
  have hparse : parse_frontmatter (generate_frontmatter M ++ E)
      = (E, Yaml.map (orderedMetadata M)) := parse_gen_core hOM E
  have hlk : pyLookup "note_hash".toList (orderedMetadata M)
      = some (.s (.str (calculate_file_hash E))) := by
    rw [pyLookup_orderedMetadata hn]
    exact hhash
  have hfm := filterStage_map path hname hparse
  refine ⟨?_, by rw [hparse]⟩
  by_cases hig : igTrue (match pyLookup "ignoreParse".toList (orderedMetadata M) with
      | some v => v
      | none => .s (.bool false)) = true
  · have hf : filterStage ⟨path, name, .text (generate_frontmatter M ++ E)⟩
        = .ignoreSkip := by rw [hfm, if_pos hig]
    unfold processNoteR
    rw [hf]
  · have hck : containsKey "note_hash".toList (orderedMetadata M) = true := by
      rw [containsKey_eq_isSome, hlk]
      rfl
    have hf : filterStage ⟨path, name, .text (generate_frontmatter M ++ E)⟩
        = .hashMatch := by
      rw [hfm, if_neg hig, if_pos hck, if_pos hlk]
    unfold processNoteR
    rw [hf]

/-- C2 witness: a concrete saved note (metadata as a prior successful run
would stamp it) is filtered on the second run with no effects. -/
theorem C2_second_run_filtered_witness :
    processNoteR ⟨1⟩ (fun _ => .error ()) "Feb 01, 2025 09:00:00 UTC".toList
      ⟨"/inbox/a.md".toList, "a.md".toList,
        .text (generate_frontmatter
          [("processed_datetime".toList, .s (.str "Jan 07, 2025 14:30:25 UTC".toList)),
           ("note_hash".toList, .s (.str (calculate_file_hash "enhanced body\n".toList))),
           ("summary".toList, .s (.str "a short note".toList)),
           ("tags".toList, .list [.str "#alpha".toList])]
          ++ "enhanced body\n".toList)⟩
      = (.FILTERED, Effects.noops)
    ∧ (parse_frontmatter (generate_frontmatter
          [("processed_datetime".toList, .s (.str "Jan 07, 2025 14:30:25 UTC".toList)),
           ("note_hash".toList, .s (.str (calculate_file_hash "enhanced body\n".toList))),
           ("summary".toList, .s (.str "a short note".toList)),
           ("tags".toList, .list [.str "#alpha".toList])]
          ++ "enhanced body\n".toList)).1 = "enhanced body\n".toList :=
  C2_second_run_filtered (by decide) (by decide) rfl (by decide)

/-- C5: the filter skips on the skip directive exactly when the
`ignoreParse` entry of the existing metadata is the boolean true or a
string equal to `"true"` case-insensitively — any other value (e.g. the
integer 1 or the string "yes") does not trigger this ground — and a note
skipped this way is filtered with no rename (no effects at all). -/
theorem C5_skip_directive (path name s body : List Char)
    {kvs : List (List Char × YVal)} (cfg : Config) (llm : LLM) (now : List Char)
    (hname : "_".toList.isPrefixOf name = false)
    (hparse : parse_frontmatter s = (body, .map kvs)) :
    (filterStage ⟨path, name, .text s⟩ = .ignoreSkip
      ↔ (pyLookup "ignoreParse".toList kvs = some (.s (.bool true))
         ∨ ∃ t, pyLookup "ignoreParse".toList kvs = some (.s (.str t))
              ∧ lowerStr t = "true".toList))
    ∧ (filterStage ⟨path, name, .text s⟩ = .ignoreSkip →
        processNoteR cfg llm now ⟨path, name, .text s⟩
          = (.FILTERED, Effects.noops)) := by
  have hfm := filterStage_map path hname hparse
  constructor
  · rw [hfm, ← igTrue_iff (pyLookup "ignoreParse".toList kvs)]
    by_cases hig : igTrue (match pyLookup "ignoreParse".toList kvs with
        | some v => v
        | none => .s (.bool false)) = true
    · rw [if_pos hig]
      exact iff_of_true rfl hig
    · rw [if_neg hig]
      constructor
      · intro hcon
        exfalso
        by_cases h1 : containsKey "note_hash".toList kvs = true
        · rw [if_pos h1] at hcon
          by_cases h2 : pyLookup "note_hash".toList kvs
              = some (.s (.str (calculate_file_hash body)))
          · rw [if_pos h2] at hcon
            exact FilterRes.noConfusion hcon
          · rw [if_neg h2] at hcon
            exact FilterRes.noConfusion hcon
        · rw [if_neg h1] at hcon
          exact FilterRes.noConfusion hcon
      · intro hcon
        exact absurd hcon hig
  · intro h
    unfold processNoteR
    rw [h]

/-- C5 witness: a note whose metadata holds `ignoreParse: "TRUE"` is
skipped (and filtered with no effects), instantiating both conjuncts. -/
theorem C5_skip_directive_witness :
    (filterStage ⟨"/inbox/b.md".toList, "b.md".toList,
        .text "---\nignoreParse: TRUE\n---\nhello".toList⟩ = .ignoreSkip
      ↔ (pyLookup "ignoreParse".toList [("ignoreParse".toList, YVal.s (.str "TRUE".toList))]
            = some (.s (.bool true))
         ∨ ∃ t, pyLookup "ignoreParse".toList
                [("ignoreParse".toList, YVal.s (.str "TRUE".toList))]
              = some (.s (.str t))
             ∧ lowerStr t = "true".toList))
    ∧ (filterStage ⟨"/inbox/b.md".toList, "b.md".toList,
        .text "---\nignoreParse: TRUE\n---\nhello".toList⟩ = .ignoreSkip →
        processNoteR ⟨1⟩ (fun _ => .error ()) "now".toList
          ⟨"/inbox/b.md".toList, "b.md".toList,
            .text "---\nignoreParse: TRUE\n---\nhello".toList⟩
          = (.FILTERED, Effects.noops)) :=
  C5_skip_directive "/inbox/b.md".toList "b.md".toList
    "---\nignoreParse: TRUE\n---\nhello".toList "hello".toList
    ⟨1⟩ (fun _ => .error ()) "now".toList (by decide) (by decide)

/-- C8: an oversized note that passes the filter stage takes the
validation-failed outcome, with no rename and no write (no effects at
all). -/
theorem C8_oversized {cfg : Config} {llm : LLM} {now : List Char} {note : NoteIn}
    (tc body : List Char) (fm : List (List Char × YVal))
    (hpass : filterStage note = .pass tc body fm)
    (hsize : note.content.byteLen > cfg.max_note_size_kb * BYTES_PER_KB) :
    processNoteR cfg llm now note = (.VALIDATION_FAILED, Effects.noops) := by
  unfold processNoteR
  rw [hpass]
  simp only []
  rw [if_pos hsize]

/-- C8 witness: a two-byte note against a zero-KB limit. -/
theorem C8_oversized_witness :
    processNoteR ⟨0⟩ (fun _ => .error ()) "now".toList
      ⟨"/inbox/c.md".toList, "c.md".toList, .text "hi".toList⟩
      = (.VALIDATION_FAILED, Effects.noops) :=
  C8_oversized "hi".toList "hi".toList [] (by decide) (by decide)

/-- C6 counterexample: on a delimited block that is valid YAML but a truthy
non-mapping (`---\nhello\n---\nbody`), `parse_frontmatter` does NOT return
the original untouched content with empty metadata — it returns the
post-delimiter body with the scalar as metadata. -/
theorem C6_counterexample :
    parse_frontmatter "---\nhello\n---\nbody".toList
      = ("body".toList, Yaml.scalar (.str "hello".toList))
    ∧ parse_frontmatter "---\nhello\n---\nbody".toList
      ≠ ("---\nhello\n---\nbody".toList, Yaml.map []) := by
  constructor
  · rfl
  · decide

/-- C6 (amended): `parse_frontmatter` is total (never raises).  When the
content does not begin with the opening delimiter, or no closing delimiter
line is found, or the block raises a YAML parse error, it returns the
original untouched content with empty metadata.  When the block parses
successfully, it returns the post-delimiter body, with empty metadata when
the parsed value is falsy and the parsed value itself otherwise — even when
that value is not a mapping. -/
theorem C6_parse_totality (content : List Char) :
    (("---\n".toList.isPrefixOf content = false) →
      parse_frontmatter content = (content, Yaml.map []))
    ∧ (("---\n".toList.isPrefixOf content = true) →
        pyFind content "\n---\n".toList 4 = none →
        parse_frontmatter content = (content, Yaml.map []))
    ∧ (∀ i, "---\n".toList.isPrefixOf content = true →
        pyFind content "\n---\n".toList 4 = some i →
        yamlLoad ((content.take i).drop 4) = .error () →
        parse_frontmatter content = (content, Yaml.map []))
    ∧ (∀ i v, "---\n".toList.isPrefixOf content = true →
        pyFind content "\n---\n".toList 4 = some i →
        yamlLoad ((content.take i).drop 4) = .ok v →
        parse_frontmatter content
          = (content.drop (i + 5), if pyFalsy v then Yaml.map [] else v)) := by
  refine ⟨?_, ?_, ?_, ?_⟩
  · intro h0
    unfold parse_frontmatter
    rw [if_pos (by rw [h0]; simp)]
  · intro h0 h1
    unfold parse_frontmatter
    rw [if_neg (by rw [h0]; simp), h1]
  · intro i h0 h1 h2
    unfold parse_frontmatter
    rw [if_neg (by rw [h0]; simp), h1]
    simp only []
    rw [h2]
  · intro i v h0 h1 h2
    unfold parse_frontmatter
    rw [if_neg (by rw [h0]; simp), h1]
    simp only []
    rw [h2]

/-- C6 witness: the parse-error branch at a concrete input (a block whose
second line is not a mapping line), returning the original untouched
content. -/
theorem C6_parse_totality_witness :
    ("---\n".toList.isPrefixOf "---\nx\ny\n---\nbody".toList = true)
    ∧ pyFind "---\nx\ny\n---\nbody".toList "\n---\n".toList 4 = some 7
    ∧ yamlLoad (("---\nx\ny\n---\nbody".toList.take 7).drop 4) = .error ()
    ∧ parse_frontmatter "---\nx\ny\n---\nbody".toList
        = ("---\nx\ny\n---\nbody".toList, Yaml.map []) :=
  ⟨by decide, by decide, rfl,
    (C6_parse_totality _).2.2.1 7 (by decide) (by decide) rfl⟩

/-- C10: when the delimited block is valid YAML whose value is truthy but
not a mapping, `parse_frontmatter` returns that non-mapping value as the
metadata component, with the text after the closing delimiter as the
body. -/
theorem C10_nonmapping_passthrough {content : List Char} {i : Nat} {v : Yaml}
    (h0 : "---\n".toList.isPrefixOf content = true)
    (h1 : pyFind content "\n---\n".toList 4 = some i)
    (h2 : yamlLoad ((content.take i).drop 4) = .ok v)
    (h3 : v.isMapping = false)
    (h4 : pyFalsy v = false) :
    parse_frontmatter content = (content.drop (i + 5), v) := by
  unfold parse_frontmatter
  rw [if_neg (by rw [h0]; simp), h1]
  simp only []
  rw [h2]
  simp only []
  rw [h4]
  simp

/-- C10 witness: the bare scalar block `---\nhello\n---\nbody`. -/
theorem C10_nonmapping_passthrough_witness :
    ("---\n".toList.isPrefixOf "---\nhello\n---\nbody".toList = true)
    ∧ (Yaml.scalar (.str "hello".toList)).isMapping = false
    ∧ parse_frontmatter "---\nhello\n---\nbody".toList
        = ("---\nhello\n---\nbody".toList.drop 14, Yaml.scalar (.str "hello".toList)) :=
  ⟨by decide, by decide,
    C10_nonmapping_passthrough (i := 9) (by decide) (by decide) rfl
      (by decide) (by decide)⟩

/-- C7 counterexample: a raw response that is NOT parseable JSON (it is
wrapped in a code fence) on which `parse_claude_response` does not return
the fallback — the fence is stripped first and the inner JSON is used. -/
theorem C7_counterexample :
    jsonParse ("```json\n\x7b\"content\": \"a\", \"metadata\": \x7b\x7d\x7d\n```".toList)
      = .error ()
    ∧ parse_claude_response
        ("```json\n\x7b\"content\": \"a\", \"metadata\": \x7b\x7d\x7d\n```".toList)
      = .ok (Json.str "a".toList, Json.obj [])
    ∧ (Json.str "a".toList, Json.obj [])
      ≠ fallbackPair ("```json\n\x7b\"content\": \"a\", \"metadata\": \x7b\x7d\x7d\n```".toList) := by
  refine ⟨rfl, rfl, ?_⟩
  intro h
  rw [fallbackPair] at h
  injection h with h1 h2
  injection h2 with h3
  simp at h3

/-- C7 (amended): whenever the FENCE-STRIPPED response text is not
parseable JSON, or parses to a non-object, or to an object lacking a
`content` or a `metadata` key, `parse_claude_response` does not raise and
returns exactly the fallback: the raw response as content, with the fixed
error summary and tag. -/
theorem C7_fallback {s : List Char}
    (h : jsonParse (stripFences s) = .error ()
      ∨ (∃ v, jsonParse (stripFences s) = .ok v ∧ v.isObj = false)
      ∨ (∃ kvs, jsonParse (stripFences s) = .ok (.obj kvs)
          ∧ pyLookup "content".toList kvs = none)
      ∨ (∃ kvs, jsonParse (stripFences s) = .ok (.obj kvs)
          ∧ pyLookup "metadata".toList kvs = none)) :
    parse_claude_response s = .ok (fallbackPair s) := by
  unfold parse_claude_response
  simp only []
  rcases h with h | ⟨v, hv, hnob⟩ | ⟨kvs, hv, hc⟩ | ⟨kvs, hv, hm⟩
  · rw [h]
  · rw [hv]
    match v, hnob with
    | .str _, _ => rfl
    | .int _, _ => rfl
    | .bool _, _ => rfl
    | .null, _ => rfl
    | .arr _, _ => rfl
    | .obj _, hnob => simp [Json.isObj] at hnob
  · rw [hv]
    simp only []
    rw [hc]
  · rw [hv]
    simp only []
    match pyLookup "content".toList kvs with
    | none => rfl
    | some content =>
      simp only []
      rw [hm]

/-- C7 witness: the fallback at a concrete unparseable response. -/
theorem C7_fallback_witness :
    parse_claude_response "not json at all".toList
      = .ok (fallbackPair "not json at all".toList) :=
  C7_fallback (Or.inl rfl)

/-- C9: `parse_claude_response` is not total over well-formed JSON — on the
concrete response `{"content": "x", "metadata": "y"}`, which parses as a
JSON object with both required keys but a string-valued `metadata`, the
function raises (its handler catches only JSON-decode and value errors,
and `metadata.copy()` on a string is an `AttributeError`), modelled by the
error result of the embedding. -/
theorem C9_raises_on_nonmapping_metadata :
    jsonParse ("\x7b\"content\": \"x\", \"metadata\": \"y\"\x7d".toList)
      = .ok (.obj [("content".toList, .str "x".toList),
                   ("metadata".toList, .str "y".toList)])
    ∧ parse_claude_response ("\x7b\"content\": \"x\", \"metadata\": \"y\"\x7d".toList)
      = .error () :=
  ⟨rfl, rfl⟩
